import Mathlib

/-!
Verification development for the file-listing and reconciliation engine of a
storage SDK (the `list` / `listPublic` entry points of `SynapseStorageSDK`).

The TypeScript source is shallowly embedded: every helper of the source
(`hasRequiredMetadata`, `matchesFilter`, `extractMetadata`, the four-group
reconciliation loop of `list`, the deletion filter, the sort comparator, the
projection to `FileListEntry`, `fetchAllPages`, and the `listPublic` batch
loop) becomes an executable Lean definition with the same structure.

Modelling conventions:
- A serialized JSON metadata string is represented by its parse result:
  `some m` stands for a string that `JSON.parse` accepts (yielding `m`),
  `none` for a string `JSON.parse` rejects.  Optional JSON fields are
  `Option` fields; JavaScript truthiness of a string field is
  "present and non-empty", of a numeric field "present and non-zero".
- JavaScript objects used as insertion-ordered string-keyed maps are
  association lists; `Object.entries` order is insertion order.
- Network calls are oracles passed as arguments: page fetchers are functions
  from a skip offset to page data, the deletion endpoint is an
  `Except Unit` value (`.error` models a thrown fetch / non-2xx response).
- `Array.prototype.sort` (a stable comparison sort) is modelled by
  `List.insertionSort`, which is stable.
- `console.warn` in the deletion-status fallback is modelled by a returned
  Boolean flag.
-/

namespace SynapseSDK

/-- Storage-info sub-object of a parsed metadata document
(`filecoinStorageInfo` in the source). -/
structure StorageInfo where
  pieceCID : Option String := none
  pieceCid : Option String := none
  uploadTimestamp : Option String := none
deriving DecidableEq, Repr

/-- Legacy encrypted-blob sub-object (`encryptedData` in the source). -/
structure EncryptedData where
  ipfsHash : Option String := none
deriving DecidableEq, Repr

/-- Parsed metadata document, covering every field the listing code reads. -/
structure Metadata where
  name : Option String := none
  type : Option String := none
  mimeType : Option String := none
  subtype : Option String := none
  pieceCID : Option String := none
  pieceCid : Option String := none
  cid : Option String := none
  accessType : Option String := none
  size : Option Nat := none
  fileSize : Option Nat := none
  uploadTimestamp : Option String := none
  filecoinStorageInfo : Option StorageInfo := none
  encryptedData : Option EncryptedData := none
deriving DecidableEq, Repr

/-- JavaScript truthiness of an optional string value: present and non-empty. -/
def truthyS : Option String → Bool
  | none => false
  | some s => s ≠ ""

/-- JavaScript truthiness of an optional numeric value: present and non-zero. -/
def truthyN : Option Nat → Bool
  | none => false
  | some n => n ≠ 0

/-- JavaScript `a || b` on optional string values: `a` if truthy, else `b`. -/
def jsOrS (a b : Option String) : Option String :=
  if truthyS a then a else b

/-- JavaScript `a || d` where `d` is a string default: `a` if truthy, else `d`. -/
def jsOrDefault (a : Option String) (d : String) : String :=
  match a with
  | some s => if s = "" then d else s
  | none => d

/-- Optional chaining `m.filecoinStorageInfo?.pieceCID`. -/
def fsiPieceCID (m : Metadata) : Option String :=
  m.filecoinStorageInfo.bind (·.pieceCID)

/-- Optional chaining `m.filecoinStorageInfo?.pieceCid`. -/
def fsiPieceCid (m : Metadata) : Option String :=
  m.filecoinStorageInfo.bind (·.pieceCid)

/-- Optional chaining `m.filecoinStorageInfo?.uploadTimestamp`. -/
def fsiUploadTimestamp (m : Metadata) : Option String :=
  m.filecoinStorageInfo.bind (·.uploadTimestamp)

/-- Optional chaining `m.encryptedData?.ipfsHash`. -/
def encIpfsHash (m : Metadata) : Option String :=
  m.encryptedData.bind (·.ipfsHash)

/-- Source `hasFilecoinStorage`: the metadata has a truthy
`filecoinStorageInfo.pieceCID` or `filecoinStorageInfo.pieceCid`. -/
def hasFilecoinStorage (m : Metadata) : Bool :=
  truthyS (fsiPieceCID m) || truthyS (fsiPieceCid m)

/-- Source `hasRequiredMetadata`: must have a piece locator in
`filecoinStorageInfo` and must not carry a legacy `encryptedData.ipfsHash`. -/
def hasRequiredMetadata (m : Metadata) : Bool :=
  if !hasFilecoinStorage m then false
  else if truthyS (encIpfsHash m) then false
  else true

/-- Raw indexer event (`permissionedFileDeployeds` /
`permissionedFileAccessMinteds` array element).  `fileMetadata` is the
serialized JSON payload, represented by its parse result. -/
structure RawEvent where
  fileIdentifier : String
  fileMetadata : Option Metadata
  fileContractAddress : String
  fileOwner : String
deriving DecidableEq, Repr

/-- Models `JSON.stringify` of a parsed metadata document, as stored in the
`userMetaData` field.  Only its presence (a string value) is ever observable
to the filter and sort stages, so a simple field-by-field rendering without
brace characters is used. -/
def stringifyField (k : String) : Option String → String
  | none => ""
  | some v => k ++ ":" ++ v ++ ";"

/-- Models `JSON.stringify` of a numeric field. -/
def stringifyNatField (k : String) : Option Nat → String
  | none => ""
  | some v => k ++ ":" ++ toString v ++ ";"

/-- Simple textual rendering of a metadata document (models `JSON.stringify`
for the `userMetaData` slot). -/
def stringifyMetadata (m : Metadata) : String :=
  stringifyField "name" m.name ++ stringifyField "type" m.type ++
  stringifyField "mimeType" m.mimeType ++ stringifyField "subtype" m.subtype ++
  stringifyField "pieceCID" m.pieceCID ++ stringifyField "pieceCid" m.pieceCid ++
  stringifyField "cid" m.cid ++ stringifyField "accessType" m.accessType ++
  stringifyNatField "size" m.size ++ stringifyNatField "fileSize" m.fileSize ++
  stringifyField "uploadTimestamp" m.uploadTimestamp ++
  stringifyField "fsi.pieceCID" (fsiPieceCID m) ++
  stringifyField "fsi.pieceCid" (fsiPieceCid m) ++
  stringifyField "fsi.uploadTimestamp" (fsiUploadTimestamp m) ++
  stringifyField "encryptedData.ipfsHash" (encIpfsHash m)

/-- Projection of a parsed metadata document done by the source
`extractMetadata` helper.  The `userMetaData` slot holds
`JSON.stringify(fileMetadata)`; we keep the document itself (it is parsed
back verbatim during projection) and render it on demand. -/
structure DataMetadata where
  name : Option String
  type : Option String
  mimeType : Option String
  subtype : Option String
  pieceCid : Option String
  accessType : Option String
  userMetaData : Metadata
deriving DecidableEq, Repr

/-- Source `extractMetadata`: the `pieceCid` slot is the first truthy value of
`filecoinStorageInfo?.pieceCID || filecoinStorageInfo?.pieceCid || pieceCID ||
pieceCid`. -/
def extractMetadata (m : Metadata) : DataMetadata :=
  { name := m.name
    type := m.type
    mimeType := m.mimeType
    subtype := m.subtype
    pieceCid := jsOrS (fsiPieceCID m) (jsOrS (fsiPieceCid m) (jsOrS m.pieceCID m.pieceCid))
    accessType := m.accessType
    userMetaData := m }

/-- Internal per-file record built during reconciliation
(`InternalFileEntry` in the source). -/
structure InternalFileEntry where
  cid : String
  dataContractAddress : String
  dataIdentifier : String
  dataMetadata : DataMetadata
  owner : String
  isAccessMinted : Bool
deriving DecidableEq, Repr

/-- Dynamic field access `dataMetadata[field]` used by the filter and sort
stages, stringified the way `String(fieldValue)` observes it. -/
def dataMetadataField (dm : DataMetadata) (field : String) : Option String :=
  if field = "name" then dm.name
  else if field = "type" then dm.type
  else if field = "mimeType" then dm.mimeType
  else if field = "subtype" then dm.subtype
  else if field = "pieceCid" then dm.pieceCid
  else if field = "accessType" then dm.accessType
  else if field = "userMetaData" then some (stringifyMetadata dm.userMetaData)
  else none

/-- Filter spec `options.filter.filterBy`; `value` is the stringified filter
value (`String(value)` in the source) and `operator` is the optional operator
string. -/
structure FilterBy where
  field : String
  value : String
  operator : Option String
deriving DecidableEq, Repr

/-- Sort spec `options.filter.sortBy`. -/
structure SortBy where
  field : String
  direction : Option String
deriving DecidableEq, Repr

/-- The subset of `ListOptions` that the reconciliation logic reads. -/
structure ListOptions where
  filterBy : Option FilterBy := none
  sortBy : Option SortBy := none
deriving DecidableEq, Repr

/-- Computable model of JavaScript `String.prototype.toLowerCase` (ASCII
letters are lower-cased character by character). -/
def jsToLower (s : String) : String :=
  ⟨s.data.map Char.toLower⟩

/-- Computable model of JavaScript `String.prototype.startsWith`. -/
def jsStartsWith (s pre : String) : Bool :=
  pre.data.isPrefixOf s.data

/-- Computable model of JavaScript `String.prototype.endsWith`. -/
def jsEndsWith (s suf : String) : Bool :=
  suf.data.isSuffixOf s.data

/-- Lexicographic strict comparison of character lists by code point,
modelling the string comparison underlying `localeCompare`. -/
def strLtList : List Char → List Char → Bool
  | [], [] => false
  | [], _ :: _ => true
  | _ :: _, [] => false
  | a :: as, b :: bs =>
    if a.toNat < b.toNat then true
    else if b.toNat < a.toNat then false
    else strLtList as bs

/-- Lexicographic strict comparison of strings. -/
def jsStrLt (x y : String) : Bool :=
  strLtList x.data y.data

/-- Substring test used to model JavaScript `String.prototype.includes`. -/
def strIncludes (s sub : String) : Bool :=
  (List.range (s.length + 1)).any (fun i => sub.toList.isPrefixOf (s.toList.drop i))

/-- Source `matchesFilter`: absent filter always matches; an `undefined`
field value never matches; operators compare lower-cased strings, with an
unrecognized or absent operator falling through to the equality case. -/
def matchesFilter (fb : Option FilterBy) (file : InternalFileEntry) : Bool :=
  match fb with
  | none => true
  | some fb =>
    match dataMetadataField file.dataMetadata fb.field with
    | none => false
    | some fieldValue =>
      let fv := jsToLower fieldValue
      let v := jsToLower fb.value
      match fb.operator with
      | some op =>
        if op = "contains" then strIncludes fv v
        else if op = "startsWith" then jsStartsWith fv v
        else if op = "endsWith" then jsEndsWith fv v
        else fv = v
      | none => fv = v

/-- Result of fetching all pages for one role: the two concatenated event
arrays (`fetchAllPages` accumulator shape in the source). -/
structure FetchedData where
  permissionedFileDeployeds : List RawEvent := []
  permissionedFileAccessMinteds : List RawEvent := []
deriving DecidableEq, Repr

/-- Source `fetchAllPages` pagination loop for one role.  `pages` is the page
oracle keyed by the `skip` offset, `remaining` is `maxPages - page`.  Returns
the accumulated data and the number of page requests issued.  The loop keeps
fetching while the previous page had exactly `pageSize` deployed events and
the page cap is not reached. -/
def fetchAllPages (pages : Nat → FetchedData) (pageSize : Nat) :
    Nat → Nat → FetchedData × Nat
  | 0, _ => ({}, 0)
  | remaining + 1, skip =>
    let pageData := pages skip
    if pageData.permissionedFileDeployeds.length = pageSize then
      let rest := fetchAllPages pages pageSize remaining (skip + pageSize)
      ({ permissionedFileDeployeds :=
           pageData.permissionedFileDeployeds ++ rest.1.permissionedFileDeployeds
         permissionedFileAccessMinteds :=
           pageData.permissionedFileAccessMinteds ++ rest.1.permissionedFileAccessMinteds },
       rest.2 + 1)
    else (pageData, 1)

/-- All lower-cased identifiers occurring in either role access-minted event
array (source `accessMintedFileIds` set). -/
def accessMintedFileIds (ownerData minterData : FetchedData) : List String :=
  (ownerData.permissionedFileAccessMinteds ++ minterData.permissionedFileAccessMinteds).map
    (fun e => jsToLower e.fileIdentifier)

/-- The four event groups of the reconciliation loop, in the fixed source
order: owner deployed, owner access-minted, minter deployed, minter
access-minted.  The Boolean marks events from an access-minted group. -/
def groupEvents (ownerData minterData : FetchedData) : List (RawEvent × Bool) :=
  ownerData.permissionedFileDeployeds.map (fun e => (e, false)) ++
  ownerData.permissionedFileAccessMinteds.map (fun e => (e, true)) ++
  minterData.permissionedFileDeployeds.map (fun e => (e, false)) ++
  minterData.permissionedFileAccessMinteds.map (fun e => (e, true))

/-- The record built for one event by the reconciliation loop. -/
def mkInternalEntry (e : RawEvent) (id : String) (m : Metadata) (minted : Bool) :
    InternalFileEntry :=
  { cid := jsOrDefault (jsOrS (fsiPieceCID m) (fsiPieceCid m)) ""
    dataContractAddress := e.fileContractAddress
    dataIdentifier := id
    dataMetadata := extractMetadata m
    owner := e.fileOwner
    isAccessMinted := minted }

/-- The reconciliation loop over the four event groups of `list`.  The
accumulator is the insertion-ordered `allFiles` map; `processedFileIds` is
exactly its key set.  A metadata payload that fails to parse throws out of
the loop (there is no per-event try/catch in `list`), modelled by
`Except.error`. -/
def processEvents (fb : Option FilterBy) (mintedIds : List String) :
    List (RawEvent × Bool) → List (String × InternalFileEntry) →
    Except String (List (String × InternalFileEntry))
  | [], acc => .ok acc
  | (e, fromMinted) :: rest, acc =>
    let id := jsToLower e.fileIdentifier
    if (acc.map Prod.fst).contains id then
      processEvents fb mintedIds rest acc
    else
      match e.fileMetadata with
      | none => .error "SyntaxError: Unexpected token in JSON"
      | some m =>
        if hasRequiredMetadata m then
          let fd := mkInternalEntry e id m (if fromMinted then true else mintedIds.contains id)
          if matchesFilter fb fd then
            processEvents fb mintedIds rest (acc ++ [(id, fd)])
          else
            processEvents fb mintedIds rest acc
        else
          processEvents fb mintedIds rest acc

/-- The reconciliation phase of `list`: the deduplicated `allFiles` map built
from both role fetches, before the deletion overlay. -/
def reconcile (opts : ListOptions) (ownerData minterData : FetchedData) :
    Except String (List (String × InternalFileEntry)) :=
  processEvents opts.filterBy (accessMintedFileIds ownerData minterData)
    (groupEvents ownerData minterData) []

/-- Lookup `deletionStatuses[dataIdentifier] || false` against the deletion
oracle response. -/
def lookupDeleted (statuses : List (String × Bool)) (id : String) : Bool :=
  match statuses.lookup id with
  | some b => b
  | none => false

/-- The deletion overlay of `list`.  With no candidates the oracle is never
invoked.  On oracle success, records reported deleted are dropped; on oracle
failure all records are kept and a warning is surfaced (second component). -/
def deletionFilter (oracle : Except Unit (List (String × Bool)))
    (allFiles : List (String × InternalFileEntry)) :
    List (String × InternalFileEntry) × Bool :=
  if allFiles.isEmpty then (allFiles, false)
  else
    match oracle with
    | .ok statuses => (allFiles.filter (fun p => !lookupDeleted statuses p.1), false)
    | .error _ => (allFiles, true)

/-- Whether the sort direction is `desc` (the source tests
`sortBy.direction === 'desc'`; anything else sorts ascending). -/
def isDesc (sb : SortBy) : Bool :=
  decide (sb.direction = some "desc")

/-- String three-way comparison modelling `String(a).localeCompare(String(b))`
as lexicographic comparison. -/
def strCmpInt (a b : String) : Int :=
  if jsStrLt a b then -1 else if jsStrLt b a then 1 else 0

/-- The sort comparator of `list`: `undefined` values compare as first in
ascending and last in descending order, present values lexicographically,
negated for `desc`. -/
def sortComparator (sb : SortBy) (a b : InternalFileEntry) : Int :=
  let aValue := dataMetadataField a.dataMetadata sb.field
  let bValue := dataMetadataField b.dataMetadata sb.field
  match aValue, bValue with
  | none, none => 0
  | none, some _ => if isDesc sb then 1 else -1
  | some _, none => if isDesc sb then -1 else 1
  | some x, some y =>
    let comparison := strCmpInt x y
    if isDesc sb then -comparison else comparison

/-- The optional sort stage of `list`; `Array.prototype.sort` is stable and
is modelled by the stable `List.insertionSort`. -/
def sortStage (sb : Option SortBy) (files : List (String × InternalFileEntry)) :
    List (String × InternalFileEntry) :=
  match sb with
  | none => files
  | some sb => List.insertionSort (fun p q => sortComparator sb p.2 q.2 ≤ 0) files

/-- Public output shape (`FileListEntry` in the source). -/
structure FileListEntry where
  fileName : String
  pieceCid : String
  dataIdentifier : String
  fileSize : Option Nat
  isPublic : Bool
  encrypted : Bool
  uploadedAt : Option String
  contractAddress : String
  owner : String
  isAccessMinted : Bool
  shares : List String
  status : String
  metadata : Metadata
deriving DecidableEq, Repr

/-- Projection of one reconciled map entry to the public output shape.
`fullMetadata` is `JSON.parse` of the stored `userMetaData` string, which
round-trips to the original parsed document. -/
def projectEntry (p : String × InternalFileEntry) : FileListEntry :=
  let file := p.2
  let fullMetadata := file.dataMetadata.userMetaData
  { fileName := jsOrDefault file.dataMetadata.name "Unknown"
    pieceCid := jsOrDefault (jsOrS file.dataMetadata.pieceCid (some file.cid)) ""
    dataIdentifier := p.1
    fileSize :=
      if truthyN fullMetadata.size then fullMetadata.size
      else if truthyN fullMetadata.fileSize then fullMetadata.fileSize
      else none
    isPublic := file.dataMetadata.accessType = some "public"
    encrypted := true
    uploadedAt :=
      if truthyS (fsiUploadTimestamp fullMetadata) then fsiUploadTimestamp fullMetadata
      else if truthyS fullMetadata.uploadTimestamp then fullMetadata.uploadTimestamp
      else none
    contractAddress := file.dataContractAddress
    owner := file.owner
    isAccessMinted := file.isAccessMinted
    shares := []
    status := "active"
    metadata := fullMetadata }

/-- The `list` entry point after both role fetches: reconciliation, deletion
overlay, optional sort, and projection.  The second output component is the
deletion-fallback warning flag. -/
def list (opts : ListOptions) (ownerData minterData : FetchedData)
    (oracle : Except Unit (List (String × Bool))) :
    Except String (List FileListEntry × Bool) :=
  match reconcile opts ownerData minterData with
  | .error e => .error e
  | .ok allFiles =>
    let fin := deletionFilter oracle allFiles
    .ok ((sortStage opts.sortBy fin.1).map projectEntry, fin.2)

/-- One batch of the public endpoint: deployed events plus interleaved
deletion events (identifiers only). -/
structure PublicPage where
  permissionedFileDeployeds : List RawEvent := []
  permissionedFileDeleteds : List String := []
deriving DecidableEq, Repr

/-- Accumulator value of the `listPublic` scan (shape of the `allFiles`
values there: the parsed metadata document itself plus contract, owner and
the extracted piece locator). -/
structure PublicEntry where
  dataMetadata : Metadata
  dataContractAddress : String
  owner : String
  isAccessMinted : Bool
  cid : Option String
deriving DecidableEq, Repr

/-- JavaScript object assignment `m[k] = v` on an insertion-ordered map:
replaces in place if the key exists, otherwise appends. -/
def jsAssign (m : List (String × PublicEntry)) (k : String) (v : PublicEntry) :
    List (String × PublicEntry) :=
  if (m.map Prod.fst).contains k then
    m.map (fun p => if p.1 = k then (k, v) else p)
  else m ++ [(k, v)]

/-- Piece locator extraction of `listPublic`:
`filecoinStorageInfo?.pieceCid || filecoinStorageInfo?.pieceCID || pieceCid
|| cid`. -/
def publicPieceCid (m : Metadata) : Option String :=
  jsOrS (fsiPieceCid m) (jsOrS (fsiPieceCID m) (jsOrS m.pieceCid m.cid))

/-- Scan state of the `listPublic` loop: the accumulated map and the set of
deletion identifiers seen so far (no lower-casing anywhere on this path). -/
structure PublicState where
  allFiles : List (String × PublicEntry)
  deletedFileIds : List String
deriving DecidableEq, Repr

/-- The accumulator value built by `listPublic` for one deployed event. -/
def mkPublicEntry (file : RawEvent) (metadata : Metadata) : PublicEntry :=
  { dataMetadata := metadata
    dataContractAddress := file.fileContractAddress
    owner := file.fileOwner
    isAccessMinted := false
    cid := publicPieceCid metadata }

/-- Processing of one deployed event inside a `listPublic` batch: skip events
already known deleted, skip events whose metadata fails to parse (the
per-file try/catch of `listPublic`), include only events with a truthy
`filecoinStorageInfo` piece locator. -/
def processPublicFile (deleted : List String) (acc : List (String × PublicEntry))
    (file : RawEvent) : List (String × PublicEntry) :=
  if deleted.contains file.fileIdentifier then acc
  else
    match file.fileMetadata with
    | none => acc
    | some metadata =>
      if truthyS (fsiPieceCid metadata) || truthyS (fsiPieceCID metadata) then
        jsAssign acc file.fileIdentifier (mkPublicEntry file metadata)
      else acc

/-- One batch of the `listPublic` scan: deletion identifiers of the batch are
collected first, then the deployed events are processed in array order. -/
def processPublicBatch (st : PublicState) (page : PublicPage) : PublicState :=
  let deleted := st.deletedFileIds ++ page.permissionedFileDeleteds
  { allFiles := page.permissionedFileDeployeds.foldl (processPublicFile deleted) st.allFiles
    deletedFileIds := deleted }

/-- The batched scan loop of `listPublic`.  `pages` is the fetch oracle keyed
by the `skip` offset (`.error` models a failed batch fetch, which stops the
loop keeping the accumulated state).  A batch with zero deployed events stops
the loop before its deletion events are collected.  The `fuel` argument is
only an upper bound on the number of iterations; `listPublic` passes `limit`,
which suffices since `skip` grows by at least one per iteration. -/
def listPublicLoop (pages : Nat → Except Unit PublicPage) (limit : Nat) :
    Nat → Nat → PublicState → PublicState
  | 0, _, st => st
  | fuel + 1, skip, st =>
    if skip < limit then
      match pages skip with
      | .error _ => st
      | .ok page =>
        if page.permissionedFileDeployeds.isEmpty then st
        else
          listPublicLoop pages limit fuel (skip + min 100 (limit - skip))
            (processPublicBatch st page)
    else st

/-- Projection of one accumulated `listPublic` entry to the public output
shape. -/
def projectPublicEntry (p : String × PublicEntry) : FileListEntry :=
  let file := p.2
  let metadata := file.dataMetadata
  { fileName := jsOrDefault metadata.name "Unknown"
    pieceCid := jsOrDefault (jsOrS (fsiPieceCid metadata)
      (jsOrS (fsiPieceCID metadata) (jsOrS metadata.pieceCid file.cid))) ""
    dataIdentifier := p.1
    fileSize :=
      if truthyN metadata.size then metadata.size
      else if truthyN metadata.fileSize then metadata.fileSize
      else none
    isPublic := true
    encrypted := true
    uploadedAt :=
      if truthyS (fsiUploadTimestamp metadata) then fsiUploadTimestamp metadata
      else if truthyS metadata.uploadTimestamp then metadata.uploadTimestamp
      else none
    contractAddress := file.dataContractAddress
    owner := file.owner
    isAccessMinted := file.isAccessMinted
    shares := []
    status := "active"
    metadata := metadata }

/-- The `listPublic` entry point: scan up to `limit` items, purge every
deletion identifier seen during the scan, keep only records whose metadata
access type equals `public`, and project. -/
def listPublic (pages : Nat → Except Unit PublicPage) (limit : Nat) :
    List FileListEntry :=
  let st := listPublicLoop pages limit limit 0 ⟨[], []⟩
  let cleaned := st.allFiles.filter (fun p => !st.deletedFileIds.contains p.1)
  let publicFiles := cleaned.filter (fun p => p.2.dataMetadata.accessType = some "public")
  publicFiles.map projectPublicEntry

/-! ### Characterization helpers used only in theorem statements -/

/-- Whether one event of the reconciliation loop of `list` would produce a
record: its metadata parses, passes `hasRequiredMetadata`, and the built
record passes the filter.  Returns the record it would insert. -/
def eventPasses (fb : Option FilterBy) (mintedIds : List String)
    (e : RawEvent) (fromMinted : Bool) : Option InternalFileEntry :=
  match e.fileMetadata with
  | none => none
  | some m =>
    if hasRequiredMetadata m then
      let fd := mkInternalEntry e (jsToLower e.fileIdentifier) m
        (if fromMinted then true else mintedIds.contains (jsToLower e.fileIdentifier))
      if matchesFilter fb fd then some fd else none
    else none

/-- The record of the first event (in the fixed group order) with the given
lower-cased identifier that passes the metadata and filter checks. -/
def firstGoodEntry (fb : Option FilterBy) (mintedIds : List String) :
    List (RawEvent × Bool) → String → Option InternalFileEntry
  | [], _ => none
  | (e, fm) :: rest, id =>
    if (jsToLower e.fileIdentifier) = id then
      match eventPasses fb mintedIds e fm with
      | some fd => some fd
      | none => firstGoodEntry fb mintedIds rest id
    else firstGoodEntry fb mintedIds rest id

/-! ### Concrete instances used by witnesses and counterexamples -/

/-- Well-formed metadata document with a given name. -/
def exMeta (n : String) : Metadata :=
  { name := some n
    accessType := some "public"
    filecoinStorageInfo := some { pieceCid := some ("cid-" ++ n) } }

/-- Deployed event with parseable, complete metadata. -/
def exEvent (id n : String) : RawEvent :=
  { fileIdentifier := id
    fileMetadata := some (exMeta n)
    fileContractAddress := "0xC"
    fileOwner := "0xO" }

/-- Event whose metadata string does not parse as JSON. -/
def exBadEvent (id : String) : RawEvent :=
  { fileIdentifier := id
    fileMetadata := none
    fileContractAddress := "0xC"
    fileOwner := "0xO" }

/-- Metadata with a storage locator but no name field. -/
def exMetaNoName : Metadata :=
  { filecoinStorageInfo := some { pieceCid := some "cidA" } }

/-- Metadata with a storage locator and the legacy encrypted-blob marker. -/
def exMetaLegacy : Metadata :=
  { name := some "leg"
    accessType := some "public"
    filecoinStorageInfo := some { pieceCid := some "cidL" }
    encryptedData := some { ipfsHash := some "QmX" } }

/-- Owner-side fetch result for the dedup witness: the same identifier in
different letter cases across the deployed and access-minted groups. -/
def exDupOwner : FetchedData :=
  { permissionedFileDeployeds := [exEvent "DuP" "first"]
    permissionedFileAccessMinteds := [exEvent "dUp" "second"] }

/-- Minter-side fetch result for the dedup witness. -/
def exDupMinter : FetchedData :=
  { permissionedFileDeployeds := [exEvent "dup" "third"] }

/-- Owner-side fetch result containing one malformed-metadata event and one
good event. -/
def exBadOwner : FetchedData :=
  { permissionedFileDeployeds := [exBadEvent "x", exEvent "y" "y"] }

/-- Owner-side fetch result for the sort counterexample: the good-name event
first, the missing-name event second. -/
def exSortOwner : FetchedData :=
  { permissionedFileDeployeds :=
      [ { fileIdentifier := "b", fileMetadata := some (exMeta "b"),
          fileContractAddress := "0xC", fileOwner := "0xO" },
        { fileIdentifier := "a", fileMetadata := some exMetaNoName,
          fileContractAddress := "0xC", fileOwner := "0xO" } ] }

/-- Ascending sort spec on the name field. -/
def exSortOpts : ListOptions :=
  { sortBy := some { field := "name", direction := some "asc" } }

/-- Owner-side fetch result with a single mixed-case identifier. -/
def exCaseOwner : FetchedData :=
  { permissionedFileDeployeds := [exEvent "AbC123" "f"] }

/-- Owner-side fetch result with two identifiers differing only in case. -/
def exCaseOwner2 : FetchedData :=
  { permissionedFileDeployeds := [exEvent "AbC123" "f", exEvent "abc123" "g"] }

/-- Minter-side fetch result whose access-minted stream mentions (a case
variant of) the owner-deployed identifier. -/
def exMintMinter : FetchedData :=
  { permissionedFileAccessMinteds := [exEvent "ABC123" "m"] }

/-- Public-endpoint page oracle serving one fixed batch at skip 0 and an
empty batch afterwards. -/
def exPubPages (evs : List RawEvent) (dels : List String) :
    Nat → Except Unit PublicPage :=
  fun skip =>
    if skip = 0 then
      .ok { permissionedFileDeployeds := evs, permissionedFileDeleteds := dels }
    else .ok {}

/-- Deployed event for the public-listing examples. -/
def exPubEvent (id : String) (m : Metadata) : RawEvent :=
  { fileIdentifier := id
    fileMetadata := some m
    fileContractAddress := "0xC"
    fileOwner := "0xO" }

/-- Page oracle for the pagination witness: full pages of 100 deployed events
at skip 0 and 100, a 40-event page at skip 200, empty afterwards. -/
def exPages : Nat → FetchedData :=
  fun skip =>
    if skip = 0 then { permissionedFileDeployeds := List.replicate 100 (exEvent "z" "z") }
    else if skip = 100 then { permissionedFileDeployeds := List.replicate 100 (exEvent "z" "z") }
    else if skip = 200 then { permissionedFileDeployeds := List.replicate 40 (exEvent "z" "z") }
    else {}

/-- Owner-side fetch result with a single well-formed event. -/
def exGoodOwner : FetchedData :=
  { permissionedFileDeployeds := [exEvent "y" "y"] }

/-- The reconciled map produced from `exCaseOwner` alone. -/
def exCaseFiles : List (String × InternalFileEntry) :=
  [("abc123", mkInternalEntry (exEvent "AbC123" "f") "abc123" (exMeta "f") false)]

/-- Reconciled entries with one present and one missing name field, listed
with the present-name record first. -/
def exSortFiles : List (String × InternalFileEntry) :=
  [("b", mkInternalEntry (exEvent "b" "b") "b" (exMeta "b") false),
   ("a", mkInternalEntry (exEvent "a" "a") "a" exMetaNoName false)]

/-- Provenance predicate for accumulated public entries: the entry was built
from some deployed event with parseable metadata carrying a truthy
storage-info piece locator. -/
def PubSourced (q : String × PublicEntry) : Prop :=
  ∃ f metadata, f.fileMetadata = some metadata ∧
    (truthyS (fsiPieceCid metadata) || truthyS (fsiPieceCID metadata)) = true ∧
    q = (f.fileIdentifier, mkPublicEntry f metadata)

/-- Filter spec with an unrecognized operator and a field no record carries. -/
def exWeirdFilter : FilterBy :=
  { field := "nope", value := "undefined", operator := some "weird" }

/-- Concrete internal record used by the filter witness. -/
def exInternalEntry : InternalFileEntry :=
  { cid := "cid-w"
    dataContractAddress := "0xC"
    dataIdentifier := "w"
    dataMetadata := extractMetadata (exMeta "w")
    owner := "0xO"
    isAccessMinted := false }

/-! ### Helper lemmas -/

theorem lookup_isSome_iff {α : Type} {l : List (String × α)} {k : String} :
    (l.lookup k).isSome = true ↔ k ∈ l.map Prod.fst := by
  induction l with
  | nil => simp
  | cons p rest ih =>
    obtain ⟨k1, v⟩ := p
    simp only [List.lookup_cons, List.map_cons, List.mem_cons]
    by_cases h : k = k1
    · subst h; simp
    · have hb : (k == k1) = false := beq_false_of_ne h
      simp [hb, ih, h]

theorem contains_keys_iff {α : Type} {l : List (String × α)} {k : String} :
    (l.map Prod.fst).contains k = true ↔ (l.lookup k).isSome = true := by
  rw [lookup_isSome_iff]
  exact List.elem_iff

/-! ### C10: filter semantics -/

/-- Claim C10: with a filter spec, a record whose metadata lacks the filtered
field (the dynamic field access yields `undefined`) never matches, for every
operator and every filter value; and an unrecognized or absent operator
behaves exactly as the `equals` operator. -/
theorem matchesFilter_undefined_and_default :
    ∀ (fb : FilterBy) (file : InternalFileEntry),
      (dataMetadataField file.dataMetadata fb.field = none →
        matchesFilter (some fb) file = false) ∧
      (fb.operator ≠ some "contains" → fb.operator ≠ some "startsWith" →
        fb.operator ≠ some "endsWith" →
        matchesFilter (some fb) file =
          matchesFilter (some { field := fb.field, value := fb.value,
                                operator := some "equals" }) file) := by
  intro fb file
  constructor
  · intro h
    simp [matchesFilter, h]
  · intro h1 h2 h3
    cases hF : dataMetadataField file.dataMetadata fb.field with
    | none => simp [matchesFilter, hF]
    | some fv =>
      cases hop : fb.operator with
      | none => simp [matchesFilter, hF, hop]
      | some op =>
        have hc : op ≠ "contains" := fun h => h1 (by rw [hop, h])
        have hs : op ≠ "startsWith" := fun h => h2 (by rw [hop, h])
        have he : op ≠ "endsWith" := fun h => h3 (by rw [hop, h])
        simp [matchesFilter, hF, hop, hc, hs, he]

/-- Witness for C10 at a concrete filter spec and record. -/
theorem matchesFilter_undefined_and_default_witness :
    dataMetadataField exInternalEntry.dataMetadata exWeirdFilter.field = none ∧
    exWeirdFilter.operator ≠ some "contains" ∧
    matchesFilter (some exWeirdFilter) exInternalEntry = false ∧
    matchesFilter (some exWeirdFilter) exInternalEntry =
      matchesFilter (some { field := exWeirdFilter.field, value := exWeirdFilter.value,
                            operator := some "equals" }) exInternalEntry := by
  refine ⟨by decide, by decide, ?_, ?_⟩
  · exact (matchesFilter_undefined_and_default exWeirdFilter exInternalEntry).1 (by decide)
  · exact (matchesFilter_undefined_and_default exWeirdFilter exInternalEntry).2
      (by decide) (by decide) (by decide)

/-! ### C7: pagination -/

theorem flatMap_map_succ {α : Type} (f : Nat → List α) :
    ∀ l : List Nat, (l.map Nat.succ).flatMap f = l.flatMap (fun i => f (i + 1)) := by
  intro l
  induction l with
  | nil => rfl
  | cons a l ih => simp [List.flatMap_cons, ih]

/-- Full specification of the pagination loop, for an arbitrary starting
offset: at most `remaining` requests are issued; at least one when the page
budget is positive; every page before the last fetched one had exactly
`pageSize` deployed events; if the loop stopped before exhausting the budget
the last fetched page was shorter than `pageSize`; and both event arrays are
the concatenations of the fetched pages at offsets `skip`, `skip + pageSize`,
`skip + 2 * pageSize`, and so on. -/
theorem fetchAllPages_go (pages : Nat → FetchedData) (pageSize : Nat)
    (hbound : ∀ s, (pages s).permissionedFileDeployeds.length ≤ pageSize) :
    ∀ (remaining skip : Nat),
      (fetchAllPages pages pageSize remaining skip).2 ≤ remaining ∧
      (0 < remaining → 0 < (fetchAllPages pages pageSize remaining skip).2) ∧
      (∀ i, i + 1 < (fetchAllPages pages pageSize remaining skip).2 →
        (pages (skip + i * pageSize)).permissionedFileDeployeds.length = pageSize) ∧
      ((fetchAllPages pages pageSize remaining skip).2 < remaining →
        ∀ i, i + 1 = (fetchAllPages pages pageSize remaining skip).2 →
        (pages (skip + i * pageSize)).permissionedFileDeployeds.length < pageSize) ∧
      (fetchAllPages pages pageSize remaining skip).1.permissionedFileDeployeds =
        (List.range (fetchAllPages pages pageSize remaining skip).2).flatMap
          (fun i => (pages (skip + i * pageSize)).permissionedFileDeployeds) ∧
      (fetchAllPages pages pageSize remaining skip).1.permissionedFileAccessMinteds =
        (List.range (fetchAllPages pages pageSize remaining skip).2).flatMap
          (fun i => (pages (skip + i * pageSize)).permissionedFileAccessMinteds) := by
  intro remaining
  induction remaining with
  | zero =>
    intro skip
    have h0 : fetchAllPages pages pageSize 0 skip = ({}, 0) := rfl
    rw [h0]
    refine ⟨Nat.le_refl 0, by omega, by omega, by omega, ?_, ?_⟩ <;> simp
  | succ rem ih =>
    intro skip
    by_cases h : (pages skip).permissionedFileDeployeds.length = pageSize
    · obtain ⟨h1, h2, h3, h4, h5, h6⟩ := ih (skip + pageSize)
      have hstep : fetchAllPages pages pageSize (rem + 1) skip =
          ({ permissionedFileDeployeds := (pages skip).permissionedFileDeployeds ++
               (fetchAllPages pages pageSize rem (skip + pageSize)).1.permissionedFileDeployeds
             permissionedFileAccessMinteds := (pages skip).permissionedFileAccessMinteds ++
               (fetchAllPages pages pageSize rem (skip + pageSize)).1.permissionedFileAccessMinteds },
           (fetchAllPages pages pageSize rem (skip + pageSize)).2 + 1) := by
        simp [fetchAllPages, h]
      rw [hstep]
      refine ⟨by simpa using h1, by omega, ?_, ?_, ?_, ?_⟩
      · intro i hi
        cases i with
        | zero => simpa using h
        | succ j =>
          have hj := h3 j (by simpa using hi)
          have : skip + (j + 1) * pageSize = skip + pageSize + j * pageSize := by ring
          rw [this]
          exact hj
      · intro hlt i hieq
        simp only at hlt hieq
        have hc0 : 0 < (fetchAllPages pages pageSize rem (skip + pageSize)).2 := by
          apply h2; omega
        obtain ⟨j, hj⟩ : ∃ j, i = j + 1 := ⟨i - 1, by omega⟩
        subst hj
        have : skip + (j + 1) * pageSize = skip + pageSize + j * pageSize := by ring
        rw [this]
        exact h4 (by omega) j (by omega)
      · have hfun : (fun i => (pages (skip + (i + 1) * pageSize)).permissionedFileDeployeds)
            = (fun i => (pages (skip + pageSize + i * pageSize)).permissionedFileDeployeds) := by
          funext i
          have : skip + (i + 1) * pageSize = skip + pageSize + i * pageSize := by ring
          rw [this]
        simp only [List.range_succ_eq_map, List.flatMap_cons, flatMap_map_succ, hfun,
          Nat.zero_mul, Nat.add_zero]
        rw [← h5]
      · have hfun : (fun i => (pages (skip + (i + 1) * pageSize)).permissionedFileAccessMinteds)
            = (fun i => (pages (skip + pageSize + i * pageSize)).permissionedFileAccessMinteds) := by
          funext i
          have : skip + (i + 1) * pageSize = skip + pageSize + i * pageSize := by ring
          rw [this]
        simp only [List.range_succ_eq_map, List.flatMap_cons, flatMap_map_succ, hfun,
          Nat.zero_mul, Nat.add_zero]
        rw [← h6]
    · have hstep : fetchAllPages pages pageSize (rem + 1) skip = (pages skip, 1) := by
        simp [fetchAllPages, h]
      rw [hstep]
      refine ⟨by omega, by omega, by omega, ?_, ?_, ?_⟩
      · intro _ i hieq
        have : i = 0 := by omega
        subst this
        simp only [Nat.zero_mul, Nat.add_zero]
        exact lt_of_le_of_ne (hbound skip) h
      · simp [show List.range 1 = [0] from rfl, List.flatMap_cons]
      · simp [show List.range 1 = [0] from rfl, List.flatMap_cons]

/-- Claim C7: for every role, the paginated fetcher issues page requests at
skip offsets `0, pageSize, 2 * pageSize, ...` and stops exactly when a page
returns fewer deployed events than the page size or the page budget is
reached (assuming the endpoint honours the requested page size as an upper
bound); all fetched pages are concatenated into two flat event lists.  In
particular, with page size 100, a page budget of at least 3, and deployed
page lengths 100, 100, 40, exactly 3 page requests are issued. -/
theorem fetchAllPages_pagination :
    (∀ (pages : Nat → FetchedData) (pageSize maxPages : Nat),
      (∀ s, (pages s).permissionedFileDeployeds.length ≤ pageSize) →
      (fetchAllPages pages pageSize maxPages 0).2 ≤ maxPages ∧
      (0 < maxPages → 0 < (fetchAllPages pages pageSize maxPages 0).2) ∧
      (∀ i, i + 1 < (fetchAllPages pages pageSize maxPages 0).2 →
        (pages (i * pageSize)).permissionedFileDeployeds.length = pageSize) ∧
      ((fetchAllPages pages pageSize maxPages 0).2 < maxPages →
        ∀ i, i + 1 = (fetchAllPages pages pageSize maxPages 0).2 →
        (pages (i * pageSize)).permissionedFileDeployeds.length < pageSize) ∧
      (fetchAllPages pages pageSize maxPages 0).1.permissionedFileDeployeds =
        (List.range (fetchAllPages pages pageSize maxPages 0).2).flatMap
          (fun i => (pages (i * pageSize)).permissionedFileDeployeds) ∧
      (fetchAllPages pages pageSize maxPages 0).1.permissionedFileAccessMinteds =
        (List.range (fetchAllPages pages pageSize maxPages 0).2).flatMap
          (fun i => (pages (i * pageSize)).permissionedFileAccessMinteds)) ∧
    (∀ pages : Nat → FetchedData,
      (pages 0).permissionedFileDeployeds.length = 100 →
      (pages 100).permissionedFileDeployeds.length = 100 →
      (pages 200).permissionedFileDeployeds.length = 40 →
      (fetchAllPages pages 100 5 0).2 = 3 ∧
      (fetchAllPages pages 100 5 0).1.permissionedFileDeployeds =
        (pages 0).permissionedFileDeployeds ++ ((pages 100).permissionedFileDeployeds ++
          (pages 200).permissionedFileDeployeds)) := by
  constructor
  · intro pages pageSize maxPages hbound
    have hspec := fetchAllPages_go pages pageSize hbound maxPages 0
    simpa using hspec
  · intro pages h0 h1 h2
    constructor
    · simp [fetchAllPages, h0, h1, h2]
    · simp [fetchAllPages, h0, h1, h2]

/-- Witness for C7: a page oracle returning deployed pages of lengths
100, 100, 40. -/
theorem fetchAllPages_pagination_witness :
    ((∀ s, (exPages s).permissionedFileDeployeds.length ≤ 100) ∧
      (fetchAllPages exPages 100 5 0).2 ≤ 5 ∧
      (fetchAllPages exPages 100 5 0).1.permissionedFileDeployeds =
        (List.range (fetchAllPages exPages 100 5 0).2).flatMap
          (fun i => (exPages (i * 100)).permissionedFileDeployeds)) ∧
    (fetchAllPages exPages 100 5 0).2 = 3 := by
  have hbound : ∀ s, (exPages s).permissionedFileDeployeds.length ≤ 100 := by
    intro s
    unfold exPages
    split_ifs <;> simp
  refine ⟨⟨hbound, ?_, ?_⟩, ?_⟩
  · exact (fetchAllPages_pagination.1 exPages 100 5 hbound).1
  · exact (fetchAllPages_pagination.1 exPages 100 5 hbound).2.2.2.2.1
  · exact (fetchAllPages_pagination.2 exPages (by simp [exPages])
      (by simp [exPages]) (by simp [exPages])).1

/-! ### Reconciliation-loop lemmas -/

theorem processEvents_cons (fb : Option FilterBy) (ids : List String)
    (e : RawEvent) (fm : Bool) (rest : List (RawEvent × Bool))
    (acc : List (String × InternalFileEntry)) :
    processEvents fb ids ((e, fm) :: rest) acc =
      if (acc.map Prod.fst).contains (jsToLower e.fileIdentifier) then
        processEvents fb ids rest acc
      else
        match e.fileMetadata with
        | none => .error "SyntaxError: Unexpected token in JSON"
        | some m =>
          if hasRequiredMetadata m then
            if matchesFilter fb (mkInternalEntry e (jsToLower e.fileIdentifier) m
                (if fm then true else ids.contains (jsToLower e.fileIdentifier))) then
              processEvents fb ids rest (acc ++ [((jsToLower e.fileIdentifier),
                mkInternalEntry e (jsToLower e.fileIdentifier) m
                  (if fm then true else ids.contains (jsToLower e.fileIdentifier)))])
            else processEvents fb ids rest acc
          else processEvents fb ids rest acc := rfl

theorem processEvents_cons_skip {fb : Option FilterBy} {ids : List String}
    {e : RawEvent} {fm : Bool} {rest : List (RawEvent × Bool)}
    {acc : List (String × InternalFileEntry)}
    (hc : (acc.map Prod.fst).contains (jsToLower e.fileIdentifier) = true) :
    processEvents fb ids ((e, fm) :: rest) acc = processEvents fb ids rest acc := by
  rw [processEvents_cons, if_pos hc]

theorem processEvents_cons_err {fb : Option FilterBy} {ids : List String}
    {e : RawEvent} {fm : Bool} {rest : List (RawEvent × Bool)}
    {acc : List (String × InternalFileEntry)}
    (hc : ¬ (acc.map Prod.fst).contains (jsToLower e.fileIdentifier) = true)
    (hm : e.fileMetadata = none) :
    processEvents fb ids ((e, fm) :: rest) acc =
      .error "SyntaxError: Unexpected token in JSON" := by
  rw [processEvents_cons, if_neg hc, hm]

theorem processEvents_cons_parse {fb : Option FilterBy} {ids : List String}
    {e : RawEvent} {fm : Bool} {rest : List (RawEvent × Bool)}
    {acc : List (String × InternalFileEntry)} {m : Metadata}
    (hc : ¬ (acc.map Prod.fst).contains (jsToLower e.fileIdentifier) = true)
    (hm : e.fileMetadata = some m) :
    processEvents fb ids ((e, fm) :: rest) acc =
      (if hasRequiredMetadata m then
        if matchesFilter fb (mkInternalEntry e (jsToLower e.fileIdentifier) m
            (if fm then true else ids.contains (jsToLower e.fileIdentifier))) then
          processEvents fb ids rest (acc ++ [((jsToLower e.fileIdentifier),
            mkInternalEntry e (jsToLower e.fileIdentifier) m
              (if fm then true else ids.contains (jsToLower e.fileIdentifier)))])
        else processEvents fb ids rest acc
      else processEvents fb ids rest acc) := by
  rw [processEvents_cons, if_neg hc, hm]

theorem processEvents_isOk {fb : Option FilterBy} {ids : List String} :
    ∀ (evs : List (RawEvent × Bool)) (acc : List (String × InternalFileEntry)),
      (∀ p ∈ evs, p.1.fileMetadata.isSome = true) →
      ∃ res, processEvents fb ids evs acc = .ok res := by
  intro evs
  induction evs with
  | nil => exact fun acc _ => ⟨acc, rfl⟩
  | cons p rest ih =>
    intro acc hp
    obtain ⟨e, fm⟩ := p
    obtain ⟨m, hm⟩ := Option.isSome_iff_exists.mp
      (show e.fileMetadata.isSome = true from hp (e, fm) (List.mem_cons_self _ _))
    have hrest := fun q hq => hp q (List.mem_cons_of_mem _ hq)
    by_cases hc : (acc.map Prod.fst).contains (jsToLower e.fileIdentifier) = true
    · obtain ⟨res, hres⟩ := ih acc hrest
      exact ⟨res, by rw [processEvents_cons_skip hc, hres]⟩
    · by_cases hr : hasRequiredMetadata m = true
      · by_cases hf : matchesFilter fb (mkInternalEntry e (jsToLower e.fileIdentifier) m
          (if fm then true else ids.contains (jsToLower e.fileIdentifier))) = true
        · obtain ⟨res, hres⟩ := ih (acc ++ [((jsToLower e.fileIdentifier),
            mkInternalEntry e (jsToLower e.fileIdentifier) m
              (if fm then true else ids.contains (jsToLower e.fileIdentifier)))]) hrest
          exact ⟨res, by rw [processEvents_cons_parse hc hm, if_pos hr, if_pos hf, hres]⟩
        · obtain ⟨res, hres⟩ := ih acc hrest
          exact ⟨res, by rw [processEvents_cons_parse hc hm, if_pos hr, if_neg hf, hres]⟩
      · obtain ⟨res, hres⟩ := ih acc hrest
        exact ⟨res, by rw [processEvents_cons_parse hc hm, if_neg hr, hres]⟩

theorem processEvents_mem {fb : Option FilterBy} {ids : List String} :
    ∀ (evs : List (RawEvent × Bool)) (acc res : List (String × InternalFileEntry)),
      processEvents fb ids evs acc = .ok res →
      ∀ q ∈ res, q ∈ acc ∨ ∃ e fm m,
        (e, fm) ∈ evs ∧ e.fileMetadata = some m ∧ hasRequiredMetadata m = true ∧
        matchesFilter fb q.2 = true ∧
        q = ((jsToLower e.fileIdentifier),
             mkInternalEntry e (jsToLower e.fileIdentifier) m
               (if fm then true else ids.contains (jsToLower e.fileIdentifier))) := by
  intro evs
  induction evs with
  | nil =>
    intro acc res hres q hq
    simp only [processEvents, Except.ok.injEq] at hres
    exact Or.inl (hres ▸ hq)
  | cons p rest ih =>
    intro acc res hres q hq
    obtain ⟨e, fm⟩ := p
    have hlift : (q ∈ acc ∨ ∃ e0 fm0 m0, (e0, fm0) ∈ rest ∧ e0.fileMetadata = some m0 ∧
        hasRequiredMetadata m0 = true ∧ matchesFilter fb q.2 = true ∧
        q = ((jsToLower e0.fileIdentifier), mkInternalEntry e0 (jsToLower e0.fileIdentifier) m0
          (if fm0 then true else ids.contains (jsToLower e0.fileIdentifier)))) →
        (q ∈ acc ∨ ∃ e0 fm0 m0, (e0, fm0) ∈ (e, fm) :: rest ∧
          e0.fileMetadata = some m0 ∧ hasRequiredMetadata m0 = true ∧
          matchesFilter fb q.2 = true ∧
          q = ((jsToLower e0.fileIdentifier), mkInternalEntry e0 (jsToLower e0.fileIdentifier) m0
            (if fm0 then true else ids.contains (jsToLower e0.fileIdentifier)))) := by
      rintro (h | ⟨e0, fm0, m0, hmem, hrest⟩)
      · exact Or.inl h
      · exact Or.inr ⟨e0, fm0, m0, List.mem_cons_of_mem _ hmem, hrest⟩
    by_cases hc : (acc.map Prod.fst).contains (jsToLower e.fileIdentifier) = true
    · rw [processEvents_cons_skip hc] at hres
      exact hlift (ih acc res hres q hq)
    · cases hm : e.fileMetadata with
      | none => rw [processEvents_cons_err hc hm] at hres; exact absurd hres (by simp)
      | some m =>
        rw [processEvents_cons_parse hc hm] at hres
        by_cases hr : hasRequiredMetadata m = true
        · rw [if_pos hr] at hres
          by_cases hf : matchesFilter fb (mkInternalEntry e (jsToLower e.fileIdentifier) m
            (if fm then true else ids.contains (jsToLower e.fileIdentifier))) = true
          · rw [if_pos hf] at hres
            rcases ih _ res hres q hq with hacc | hgood
            · rcases List.mem_append.mp hacc with h | h
              · exact Or.inl h
              · have hqe : q = ((jsToLower e.fileIdentifier),
                    mkInternalEntry e (jsToLower e.fileIdentifier) m
                      (if fm then true else ids.contains (jsToLower e.fileIdentifier))) := by
                  simpa using h
                refine Or.inr ⟨e, fm, m, List.mem_cons_self _ _, hm, hr, ?_, hqe⟩
                rw [hqe]
                exact hf
            · exact hlift (Or.inr hgood)
          · rw [if_neg hf] at hres
            exact hlift (ih acc res hres q hq)
        · rw [if_neg hr] at hres
          exact hlift (ih acc res hres q hq)

theorem processEvents_nodup {fb : Option FilterBy} {ids : List String} :
    ∀ (evs : List (RawEvent × Bool)) (acc res : List (String × InternalFileEntry)),
      (acc.map Prod.fst).Nodup →
      processEvents fb ids evs acc = .ok res →
      (res.map Prod.fst).Nodup := by
  intro evs
  induction evs with
  | nil =>
    intro acc res hacc hres
    simp only [processEvents, Except.ok.injEq] at hres
    exact hres ▸ hacc
  | cons p rest ih =>
    intro acc res hacc hres
    obtain ⟨e, fm⟩ := p
    by_cases hc : (acc.map Prod.fst).contains (jsToLower e.fileIdentifier) = true
    · rw [processEvents_cons_skip hc] at hres
      exact ih acc res hacc hres
    · cases hm : e.fileMetadata with
      | none => rw [processEvents_cons_err hc hm] at hres; exact absurd hres (by simp)
      | some m =>
        rw [processEvents_cons_parse hc hm] at hres
        by_cases hr : hasRequiredMetadata m = true
        · rw [if_pos hr] at hres
          by_cases hf : matchesFilter fb (mkInternalEntry e (jsToLower e.fileIdentifier) m
            (if fm then true else ids.contains (jsToLower e.fileIdentifier))) = true
          · rw [if_pos hf] at hres
            have hnotin : (jsToLower e.fileIdentifier) ∉ acc.map Prod.fst := by
              intro hmem
              exact hc (List.elem_iff.mpr hmem)
            have hacc2 : ((acc ++ [((jsToLower e.fileIdentifier),
                mkInternalEntry e (jsToLower e.fileIdentifier) m
                  (if fm then true else ids.contains (jsToLower e.fileIdentifier)))]).map
                Prod.fst).Nodup := by
              simp only [List.map_append, List.map_cons, List.map_nil]
              rw [List.nodup_append]
              refine ⟨hacc, List.nodup_singleton _, ?_⟩
              intro a ha hb
              simp only [List.mem_singleton] at hb
              exact hnotin (hb ▸ ha)
            exact ih _ res hacc2 hres
          · rw [if_neg hf] at hres
            exact ih acc res hacc hres
        · rw [if_neg hr] at hres
          exact ih acc res hacc hres

theorem processEvents_lookup {fb : Option FilterBy} {ids : List String} :
    ∀ (evs : List (RawEvent × Bool)) (acc res : List (String × InternalFileEntry)),
      (∀ p ∈ evs, p.1.fileMetadata.isSome = true) →
      processEvents fb ids evs acc = .ok res →
      ∀ id, res.lookup id = (acc.lookup id).or (firstGoodEntry fb ids evs id) := by
  intro evs
  induction evs with
  | nil =>
    intro acc res _ hres id
    simp only [processEvents, Except.ok.injEq] at hres
    simp [← hres, firstGoodEntry]
  | cons p rest ih =>
    intro acc res hp hres id
    obtain ⟨e, fm⟩ := p
    obtain ⟨m, hm⟩ := Option.isSome_iff_exists.mp
      (show e.fileMetadata.isSome = true from hp (e, fm) (List.mem_cons_self _ _))
    have hrest := fun q hq => hp q (List.mem_cons_of_mem _ hq)
    by_cases hid : (jsToLower e.fileIdentifier) = id
    · by_cases hc : (acc.map Prod.fst).contains (jsToLower e.fileIdentifier) = true
      · have hsome : (acc.lookup (jsToLower e.fileIdentifier)).isSome = true :=
          contains_keys_iff.mp hc
        obtain ⟨v, hv⟩ := Option.isSome_iff_exists.mp hsome
        rw [processEvents_cons_skip hc] at hres
        rw [ih acc res hrest hres id, ← hid, hv]
        simp [Option.or]
      · rw [processEvents_cons_parse hc hm] at hres
        by_cases hr : hasRequiredMetadata m = true
        · rw [if_pos hr] at hres
          by_cases hf : matchesFilter fb (mkInternalEntry e (jsToLower e.fileIdentifier) m
            (if fm then true else ids.contains (jsToLower e.fileIdentifier))) = true
          · rw [if_pos hf] at hres
            rw [ih _ res hrest hres id, List.lookup_append]
            have hnone : acc.lookup id = none := by
              cases hl : acc.lookup id with
              | none => rfl
              | some v =>
                exact absurd (contains_keys_iff.mpr (hid ▸ (by simp [hl]))) hc
            have hpass : eventPasses fb ids e fm =
                some (mkInternalEntry e (jsToLower e.fileIdentifier) m
                  (if fm then true else ids.contains (jsToLower e.fileIdentifier))) := by
              simp only [eventPasses, hm, if_pos hr, if_pos hf]
            have hsingle : ([((jsToLower e.fileIdentifier),
                mkInternalEntry e (jsToLower e.fileIdentifier) m
                  (if fm then true else ids.contains (jsToLower e.fileIdentifier)))].lookup id) =
                some (mkInternalEntry e (jsToLower e.fileIdentifier) m
                  (if fm then true else ids.contains (jsToLower e.fileIdentifier))) := by
              have hb : (id == (jsToLower e.fileIdentifier)) = true := by
                rw [hid]
                exact beq_self_eq_true _
              simp [List.lookup_cons, hb]
            rw [hnone, hsingle]
            simp only [Option.or]
            rw [firstGoodEntry, if_pos hid, hpass]
          · rw [if_neg hf] at hres
            rw [ih acc res hrest hres id]
            have hpass : eventPasses fb ids e fm = none := by
              simp only [eventPasses, hm, if_pos hr, if_neg hf]
            rw [firstGoodEntry, if_pos hid, hpass]
        · rw [if_neg hr] at hres
          rw [ih acc res hrest hres id]
          have hpass : eventPasses fb ids e fm = none := by
            simp only [eventPasses, hm, if_neg hr]
          rw [firstGoodEntry, if_pos hid, hpass]
    · have hskip : firstGoodEntry fb ids ((e, fm) :: rest) id =
          firstGoodEntry fb ids rest id := by
        rw [firstGoodEntry, if_neg hid]
      by_cases hc : (acc.map Prod.fst).contains (jsToLower e.fileIdentifier) = true
      · rw [processEvents_cons_skip hc] at hres
        rw [ih acc res hrest hres id, hskip]
      · rw [processEvents_cons_parse hc hm] at hres
        by_cases hr : hasRequiredMetadata m = true
        · rw [if_pos hr] at hres
          by_cases hf : matchesFilter fb (mkInternalEntry e (jsToLower e.fileIdentifier) m
            (if fm then true else ids.contains (jsToLower e.fileIdentifier))) = true
          · rw [if_pos hf] at hres
            rw [ih _ res hrest hres id, List.lookup_append, hskip]
            have hsingle : ([((jsToLower e.fileIdentifier),
                mkInternalEntry e (jsToLower e.fileIdentifier) m
                  (if fm then true else ids.contains (jsToLower e.fileIdentifier)))].lookup id) =
                none := by
              have hb : (id == (jsToLower e.fileIdentifier)) = false :=
                beq_false_of_ne (fun h => hid h.symm)
              simp [List.lookup_cons, hb]
            rw [hsingle]
            cases acc.lookup id <;> simp [Option.or]
          · rw [if_neg hf] at hres
            rw [ih acc res hrest hres id, hskip]
        · rw [if_neg hr] at hres
          rw [ih acc res hrest hres id, hskip]

/-! ### C1: dedup / first-writer-wins -/

/-- Claim C1: when all event metadata parses, the reconciliation phase of
`list` produces a map with at most one record per key, and the record stored
under any identifier is exactly the one built from the first event for that
identifier, in the fixed group order (owner-deployed, owner-minted,
minter-deployed, minter-minted), that passes the metadata-completeness filter
and the filter predicate; later events for the identifier are skipped, not
merged. -/
theorem list_dedup_first_writer_wins :
    ∀ (opts : ListOptions) (ownerData minterData : FetchedData),
      (∀ p ∈ groupEvents ownerData minterData, p.1.fileMetadata.isSome = true) →
      ∀ res, reconcile opts ownerData minterData = .ok res →
        (res.map Prod.fst).Nodup ∧
        ∀ id, res.lookup id =
          firstGoodEntry opts.filterBy (accessMintedFileIds ownerData minterData)
            (groupEvents ownerData minterData) id := by
  intro opts od md hp res hres
  refine ⟨processEvents_nodup _ [] res (by simp) hres, fun id => ?_⟩
  have h := processEvents_lookup _ [] res hp hres id
  simpa [Option.or] using h

/-- Witness for C1: the identifier `dup` occurs, in different letter cases,
in three of the four event groups; the owner-deployed event wins. -/
theorem list_dedup_first_writer_wins_witness :
    (∀ p ∈ groupEvents exDupOwner exDupMinter, p.1.fileMetadata.isSome = true) ∧
    reconcile {} exDupOwner exDupMinter =
      .ok [("dup", mkInternalEntry (exEvent "DuP" "first") "dup" (exMeta "first") true)] ∧
    ([("dup", mkInternalEntry (exEvent "DuP" "first") "dup" (exMeta "first") true)].map
      Prod.fst).Nodup ∧
    [("dup", mkInternalEntry (exEvent "DuP" "first") "dup" (exMeta "first") true)].lookup "dup" =
      firstGoodEntry none (accessMintedFileIds exDupOwner exDupMinter)
        (groupEvents exDupOwner exDupMinter) "dup" := by
  have hp : ∀ p ∈ groupEvents exDupOwner exDupMinter, p.1.fileMetadata.isSome = true := by
    decide
  have hr : reconcile {} exDupOwner exDupMinter =
      .ok [("dup", mkInternalEntry (exEvent "DuP" "first") "dup" (exMeta "first") true)] := by
    rfl
  obtain ⟨hnd, hlk⟩ := list_dedup_first_writer_wins {} exDupOwner exDupMinter hp _ hr
  exact ⟨hp, hr, hnd, hlk "dup"⟩

/-! ### C2: malformed metadata aborts list -/

/-- Counterexample for C2 as stated: a batch containing one event with
malformed metadata and one good event makes `list` throw instead of
returning the good event. -/
theorem list_malformed_metadata_aborts :
    list {} exBadOwner {} (.ok []) = .error "SyntaxError: Unexpected token in JSON" := by
  rfl

/-- Claim C2 (amended): in `list` a malformed metadata payload for an
individual event is fatal — the parse error propagates and the whole call
throws; `list` is guaranteed to return an array when every event carries
parseable metadata. -/
theorem list_ok_of_parseable_metadata :
    ∀ (opts : ListOptions) (ownerData minterData : FetchedData)
      (oracle : Except Unit (List (String × Bool))),
      (∀ p ∈ groupEvents ownerData minterData, p.1.fileMetadata.isSome = true) →
      ∃ out, list opts ownerData minterData oracle = .ok out := by
  intro opts od md oracle hp
  obtain ⟨res, hres⟩ := processEvents_isOk (groupEvents od md) [] hp
  have hrec : reconcile opts od md = .ok res := hres
  refine ⟨((sortStage opts.sortBy (deletionFilter oracle res).1).map projectEntry,
    (deletionFilter oracle res).2), ?_⟩
  simp only [list, hrec]

/-- Witness for C2 (amended): with only parseable metadata the call returns. -/
theorem list_ok_of_parseable_metadata_witness :
    (∀ p ∈ groupEvents exGoodOwner ({} : FetchedData), p.1.fileMetadata.isSome = true) ∧
    ∃ out, list {} exGoodOwner {} (Except.ok []) = .ok out := by
  have hp : ∀ p ∈ groupEvents exGoodOwner ({} : FetchedData), p.1.fileMetadata.isSome = true := by
    decide
  exact ⟨hp, list_ok_of_parseable_metadata {} exGoodOwner {} (Except.ok []) hp⟩

/-! ### Stage lemmas for list -/

theorem deletionFilter_ok (sts : List (String × Bool))
    (files : List (String × InternalFileEntry)) :
    deletionFilter (.ok sts) files =
      (files.filter (fun p => !lookupDeleted sts p.1), false) := by
  unfold deletionFilter
  by_cases h : files.isEmpty
  · rw [if_pos h]
    have he : files = [] := List.isEmpty_iff.mp h
    subst he
    rfl
  · rw [if_neg h]

theorem deletionFilter_err (files : List (String × InternalFileEntry)) :
    deletionFilter (.error ()) files = (files, !files.isEmpty) := by
  unfold deletionFilter
  by_cases h : files.isEmpty
  · rw [if_pos h]
    have he : files = [] := List.isEmpty_iff.mp h
    subst he
    rfl
  · rw [if_neg h]
    have he : files.isEmpty = false := by
      cases hh : files.isEmpty
      · rfl
      · exact absurd hh h
    rw [he]
    rfl

theorem deletionFilter_fst_mem {oracle : Except Unit (List (String × Bool))}
    {files : List (String × InternalFileEntry)} {q : String × InternalFileEntry}
    (hq : q ∈ (deletionFilter oracle files).1) : q ∈ files := by
  obtain ⟨u⟩ | sts := oracle
  · rw [deletionFilter_err] at hq
    exact hq
  · rw [deletionFilter_ok] at hq
    exact (List.mem_filter.mp hq).1

theorem sortStage_perm (sb : Option SortBy) (files : List (String × InternalFileEntry)) :
    (sortStage sb files).Perm files := by
  cases sb with
  | none => exact List.Perm.refl files
  | some sb => exact List.perm_insertionSort _ files

theorem mem_sortStage {sb : Option SortBy} {files : List (String × InternalFileEntry)}
    {q : String × InternalFileEntry} : q ∈ sortStage sb files ↔ q ∈ files :=
  (sortStage_perm sb files).mem_iff

theorem projectEntry_dataIdentifier (q : String × InternalFileEntry) :
    (projectEntry q).dataIdentifier = q.1 := rfl

theorem projectEntry_metadata (q : String × InternalFileEntry) :
    (projectEntry q).metadata = q.2.dataMetadata.userMetaData := rfl

theorem projectEntry_isAccessMinted (q : String × InternalFileEntry) :
    (projectEntry q).isAccessMinted = q.2.isAccessMinted := rfl

theorem list_eq_of_reconcile {opts : ListOptions} {ownerData minterData : FetchedData}
    {oracle : Except Unit (List (String × Bool))}
    {files : List (String × InternalFileEntry)}
    (h : reconcile opts ownerData minterData = .ok files) :
    list opts ownerData minterData oracle =
      .ok ((sortStage opts.sortBy (deletionFilter oracle files).1).map projectEntry,
           (deletionFilter oracle files).2) := by
  simp only [list, h]

theorem list_entry_source {opts : ListOptions} {ownerData minterData : FetchedData}
    {oracle : Except Unit (List (String × Bool))}
    {l : List FileListEntry} {w : Bool}
    (h : list opts ownerData minterData oracle = .ok (l, w)) :
    ∃ files, reconcile opts ownerData minterData = .ok files ∧
      ∀ ent ∈ l, ∃ q ∈ files, ent = projectEntry q := by
  cases hrec : reconcile opts ownerData minterData with
  | error e => rw [list, hrec] at h; cases h
  | ok files =>
    refine ⟨files, rfl, ?_⟩
    intro ent hent
    rw [list_eq_of_reconcile hrec] at h
    have hl : l = (sortStage opts.sortBy (deletionFilter oracle files).1).map projectEntry := by
      cases h
      rfl
    rw [hl] at hent
    obtain ⟨q, hq, hqe⟩ := List.mem_map.mp hent
    exact ⟨q, deletionFilter_fst_mem (mem_sortStage.mp hq), hqe.symm⟩

/-! ### C4: deletion overlay -/

/-- Claim C4: on a successful deletion-oracle response, no output entry has
an identifier the oracle reports deleted, identifiers absent from the
response are kept, and the output is exactly the projection of the
deletion-filtered reconciled map; on oracle failure, `list` still succeeds,
excludes no record for deletion status, and raises the warning flag exactly
when there were candidate records. -/
theorem list_deletion_overlay :
    ∀ (opts : ListOptions) (ownerData minterData : FetchedData)
      (files : List (String × InternalFileEntry)),
      reconcile opts ownerData minterData = .ok files →
      (∀ sts, list opts ownerData minterData (.ok sts) =
        .ok ((sortStage opts.sortBy
          (files.filter (fun q => !lookupDeleted sts q.1))).map projectEntry, false)) ∧
      (∀ sts l w, list opts ownerData minterData (.ok sts) = .ok (l, w) →
        ∀ ent ∈ l, lookupDeleted sts ent.dataIdentifier = false) ∧
      (∀ sts q, q ∈ files → sts.lookup q.1 = none →
        projectEntry q ∈ ((sortStage opts.sortBy
          (files.filter (fun p => !lookupDeleted sts p.1))).map projectEntry)) ∧
      (list opts ownerData minterData (.error ()) =
        .ok ((sortStage opts.sortBy files).map projectEntry, !files.isEmpty)) ∧
      (∀ q ∈ files, projectEntry q ∈ (sortStage opts.sortBy files).map projectEntry) := by
  intro opts od md files hrec
  have hA : ∀ sts, list opts od md (.ok sts) =
      .ok ((sortStage opts.sortBy
        (files.filter (fun q => !lookupDeleted sts q.1))).map projectEntry, false) := by
    intro sts
    rw [list_eq_of_reconcile hrec, deletionFilter_ok]
  refine ⟨hA, ?_, ?_, ?_, ?_⟩
  · intro sts l w hl ent hent
    rw [hA sts] at hl
    have hle : l = (sortStage opts.sortBy
        (files.filter (fun q => !lookupDeleted sts q.1))).map projectEntry := by
      cases hl
      rfl
    rw [hle] at hent
    obtain ⟨q, hq, hqe⟩ := List.mem_map.mp hent
    have hqf := (List.mem_filter.mp (mem_sortStage.mp hq)).2
    rw [← hqe, projectEntry_dataIdentifier]
    cases hd : lookupDeleted sts q.1
    · rfl
    · rw [hd] at hqf
      cases hqf
  · intro sts q hqf hlk
    have hkeep : (!lookupDeleted sts q.1) = true := by
      unfold lookupDeleted
      rw [hlk]
      rfl
    exact List.mem_map_of_mem projectEntry
      (mem_sortStage.mpr (List.mem_filter.mpr ⟨hqf, hkeep⟩))
  · rw [list_eq_of_reconcile hrec, deletionFilter_err]
  · intro q hq
    exact List.mem_map_of_mem projectEntry (mem_sortStage.mpr hq)

/-- Witness for C4: one reconciled record; the oracle either reports it
deleted (it disappears) or the oracle call fails (it is kept, with the
warning flag set). -/
theorem list_deletion_overlay_witness :
    reconcile {} exCaseOwner {} = .ok exCaseFiles ∧
    list {} exCaseOwner {} (.ok [("abc123", true)]) =
      .ok ((sortStage none (exCaseFiles.filter
        (fun q => !lookupDeleted [("abc123", true)] q.1))).map projectEntry, false) ∧
    list {} exCaseOwner {} (.error ()) =
      .ok ((sortStage none exCaseFiles).map projectEntry, !exCaseFiles.isEmpty) := by
  have hrec : reconcile {} exCaseOwner {} = .ok exCaseFiles := by rfl
  exact ⟨hrec, (list_deletion_overlay {} exCaseOwner {} exCaseFiles hrec).1 _,
    (list_deletion_overlay {} exCaseOwner {} exCaseFiles hrec).2.2.2.1⟩

/-! ### C9: accessMinted flag -/

theorem groupEvents_minted_mem {ownerData minterData : FetchedData} {e : RawEvent}
    (h : (e, true) ∈ groupEvents ownerData minterData) :
    e ∈ ownerData.permissionedFileAccessMinteds ++ minterData.permissionedFileAccessMinteds := by
  unfold groupEvents at h
  rcases List.mem_append.mp h with h123 | h4
  · rcases List.mem_append.mp h123 with h12 | h3
    · rcases List.mem_append.mp h12 with h1 | h2
      · obtain ⟨x, hx, hxe⟩ := List.mem_map.mp h1
        simp at hxe
      · obtain ⟨x, hx, hxe⟩ := List.mem_map.mp h2
        injection hxe with he1 he2
        subst he1
        exact List.mem_append.mpr (Or.inl hx)
    · obtain ⟨x, hx, hxe⟩ := List.mem_map.mp h3
      simp at hxe
  · obtain ⟨x, hx, hxe⟩ := List.mem_map.mp h4
    injection hxe with he1 he2
    subst he1
    exact List.mem_append.mpr (Or.inr hx)

theorem accessMintedFileIds_contains_iff {ownerData minterData : FetchedData} {id : String} :
    (accessMintedFileIds ownerData minterData).contains id = true ↔
      ∃ e ∈ ownerData.permissionedFileAccessMinteds ++
            minterData.permissionedFileAccessMinteds,
        jsToLower e.fileIdentifier = id := by
  rw [show (accessMintedFileIds ownerData minterData).contains id =
      (accessMintedFileIds ownerData minterData).elem id from rfl, List.elem_iff]
  simp only [accessMintedFileIds, List.mem_map, List.mem_append]

/-- Claim C9: an output entry of `list` has a true access-minted flag exactly
when its (lower-cased) identifier is the lower-casing of some identifier in
either role access-minted event array; in particular the flag is true for
records first discovered through a deploy event whenever the identifier
occurs anywhere in either access-minted stream. -/
theorem list_accessMinted_iff :
    ∀ (opts : ListOptions) (ownerData minterData : FetchedData)
      (oracle : Except Unit (List (String × Bool)))
      (l : List FileListEntry) (w : Bool),
      list opts ownerData minterData oracle = .ok (l, w) →
      ∀ ent ∈ l, (ent.isAccessMinted = true ↔
        ∃ e ∈ ownerData.permissionedFileAccessMinteds ++
              minterData.permissionedFileAccessMinteds,
          jsToLower e.fileIdentifier = ent.dataIdentifier) := by
  intro opts od md oracle l w h ent hent
  obtain ⟨files, hrec, hsrc⟩ := list_entry_source h
  obtain ⟨q, hqf, hqe⟩ := hsrc ent hent
  rcases processEvents_mem (groupEvents od md) [] files hrec q hqf with hnil | hprov
  · cases hnil
  obtain ⟨e, fm, m, hmem, _, _, _, hq⟩ := hprov
  have hident : ent.dataIdentifier = jsToLower e.fileIdentifier := by
    rw [hqe, projectEntry_dataIdentifier, hq]
  have hflag : ent.isAccessMinted =
      (if fm then true
       else (accessMintedFileIds od md).contains (jsToLower e.fileIdentifier)) := by
    rw [hqe, projectEntry_isAccessMinted, hq]
    rfl
  rw [hident, hflag]
  cases fm with
  | true =>
    rw [if_pos rfl]
    have he := groupEvents_minted_mem hmem
    exact ⟨fun _ => ⟨e, he, rfl⟩, fun _ => rfl⟩
  | false =>
    rw [if_neg Bool.false_ne_true]
    exact accessMintedFileIds_contains_iff

/-- Witness for C9: a record discovered via an owner deploy event whose
identifier occurs (in different letter case) in the minter access-minted
stream gets a true flag. -/
theorem list_accessMinted_iff_witness :
    list {} exCaseOwner exMintMinter (Except.ok []) =
      .ok ([projectEntry ("abc123",
        mkInternalEntry (exEvent "AbC123" "f") "abc123" (exMeta "f") true)], false) ∧
    ((projectEntry ("abc123",
        mkInternalEntry (exEvent "AbC123" "f") "abc123" (exMeta "f") true)).isAccessMinted = true ↔
      ∃ e ∈ exCaseOwner.permissionedFileAccessMinteds ++
            exMintMinter.permissionedFileAccessMinteds,
        jsToLower e.fileIdentifier =
          (projectEntry ("abc123",
            mkInternalEntry (exEvent "AbC123" "f") "abc123" (exMeta "f") true)).dataIdentifier) := by
  have hl : list {} exCaseOwner exMintMinter (Except.ok []) =
      .ok ([projectEntry ("abc123",
        mkInternalEntry (exEvent "AbC123" "f") "abc123" (exMeta "f") true)], false) := by
    rfl
  exact ⟨hl, list_accessMinted_iff {} exCaseOwner exMintMinter (Except.ok []) _ _ hl _
    (List.mem_singleton.mpr rfl)⟩

/-! ### Public-listing lemmas -/

theorem jsAssign_mem {m : List (String × PublicEntry)} {k : String} {v : PublicEntry}
    {q : String × PublicEntry} (hq : q ∈ jsAssign m k v) : q ∈ m ∨ q = (k, v) := by
  unfold jsAssign at hq
  by_cases h : (m.map Prod.fst).contains k = true
  · rw [if_pos h] at hq
    obtain ⟨p, hp, hpe⟩ := List.mem_map.mp hq
    by_cases hpk : p.1 = k
    · rw [if_pos hpk] at hpe
      exact Or.inr hpe.symm
    · rw [if_neg hpk] at hpe
      exact Or.inl (hpe ▸ hp)
  · rw [if_neg h] at hq
    rcases List.mem_append.mp hq with h1 | h1
    · exact Or.inl h1
    · exact Or.inr (List.mem_singleton.mp h1)

theorem processPublicFile_eq_deleted {del : List String} {acc : List (String × PublicEntry)}
    {f : RawEvent} (hd : del.contains f.fileIdentifier = true) :
    processPublicFile del acc f = acc := by
  unfold processPublicFile
  rw [if_pos hd]

theorem processPublicFile_eq_bad {del : List String} {acc : List (String × PublicEntry)}
    {f : RawEvent} (hd : ¬ del.contains f.fileIdentifier = true)
    (hm : f.fileMetadata = none) :
    processPublicFile del acc f = acc := by
  unfold processPublicFile
  rw [if_neg hd, hm]

theorem processPublicFile_eq_parse {del : List String} {acc : List (String × PublicEntry)}
    {f : RawEvent} {metadata : Metadata}
    (hd : ¬ del.contains f.fileIdentifier = true)
    (hm : f.fileMetadata = some metadata) :
    processPublicFile del acc f =
      (if (truthyS (fsiPieceCid metadata) || truthyS (fsiPieceCID metadata)) = true then
        jsAssign acc f.fileIdentifier (mkPublicEntry f metadata)
      else acc) := by
  unfold processPublicFile
  rw [if_neg hd, hm]

theorem processPublicFile_mem {del : List String} {acc : List (String × PublicEntry)}
    {f : RawEvent} {q : String × PublicEntry}
    (hq : q ∈ processPublicFile del acc f) :
    q ∈ acc ∨ ∃ metadata, f.fileMetadata = some metadata ∧
      (truthyS (fsiPieceCid metadata) || truthyS (fsiPieceCID metadata)) = true ∧
      q = (f.fileIdentifier, mkPublicEntry f metadata) := by
  by_cases hd : del.contains f.fileIdentifier = true
  · rw [processPublicFile_eq_deleted hd] at hq
    exact Or.inl hq
  · cases hm : f.fileMetadata with
    | none =>
      rw [processPublicFile_eq_bad hd hm] at hq
      exact Or.inl hq
    | some metadata =>
      rw [processPublicFile_eq_parse hd hm] at hq
      by_cases hs : (truthyS (fsiPieceCid metadata) || truthyS (fsiPieceCID metadata)) = true
      · rw [if_pos hs] at hq
        rcases jsAssign_mem hq with h | h
        · exact Or.inl h
        · exact Or.inr ⟨metadata, rfl, hs, h⟩
      · rw [if_neg hs] at hq
        exact Or.inl hq

theorem foldl_processPublicFile_sourced {del : List String} :
    ∀ (events : List RawEvent) (acc : List (String × PublicEntry)),
      (∀ q ∈ acc, PubSourced q) →
      ∀ q ∈ events.foldl (processPublicFile del) acc, PubSourced q := by
  intro events
  induction events with
  | nil => exact fun acc hacc q hq => hacc q hq
  | cons f rest ih =>
    intro acc hacc q hq
    refine ih (processPublicFile del acc f) ?_ q hq
    intro p hp
    rcases processPublicFile_mem hp with h | ⟨metadata, hm, hs, hpe⟩
    · exact hacc p h
    · exact ⟨f, metadata, hm, hs, hpe⟩

theorem processPublicBatch_sourced {st : PublicState} {page : PublicPage}
    (hst : ∀ q ∈ st.allFiles, PubSourced q) :
    ∀ q ∈ (processPublicBatch st page).allFiles, PubSourced q := by
  intro q hq
  exact foldl_processPublicFile_sourced page.permissionedFileDeployeds st.allFiles hst q hq

theorem listPublicLoop_sourced {pages : Nat → Except Unit PublicPage} {limit : Nat} :
    ∀ (fuel skip : Nat) (st : PublicState),
      (∀ q ∈ st.allFiles, PubSourced q) →
      ∀ q ∈ (listPublicLoop pages limit fuel skip st).allFiles, PubSourced q := by
  intro fuel
  induction fuel with
  | zero => exact fun skip st hst => hst
  | succ fuel ih =>
    intro skip st hst
    by_cases hlt : skip < limit
    · cases hp : pages skip with
      | error u =>
        have he : listPublicLoop pages limit (fuel + 1) skip st = st := by
          rw [listPublicLoop, if_pos hlt, hp]
        rw [he]
        exact hst
      | ok page =>
        by_cases hemp : page.permissionedFileDeployeds.isEmpty = true
        · have he : listPublicLoop pages limit (fuel + 1) skip st = st := by
            rw [listPublicLoop, if_pos hlt, hp]
            show (if page.permissionedFileDeployeds.isEmpty then st
              else listPublicLoop pages limit fuel (skip + min 100 (limit - skip))
                (processPublicBatch st page)) = st
            rw [if_pos hemp]
          rw [he]
          exact hst
        · have he : listPublicLoop pages limit (fuel + 1) skip st =
              listPublicLoop pages limit fuel (skip + min 100 (limit - skip))
                (processPublicBatch st page) := by
            rw [listPublicLoop, if_pos hlt, hp]
            show (if page.permissionedFileDeployeds.isEmpty then st
              else listPublicLoop pages limit fuel (skip + min 100 (limit - skip))
                (processPublicBatch st page)) = _
            rw [if_neg hemp]
          rw [he]
          exact ih _ _ (processPublicBatch_sourced hst)
    · have he : listPublicLoop pages limit (fuel + 1) skip st = st := by
        rw [listPublicLoop, if_neg hlt]
      rw [he]
      exact hst

theorem projectPublicEntry_metadata (q : String × PublicEntry) :
    (projectPublicEntry q).metadata = q.2.dataMetadata := rfl

theorem projectPublicEntry_dataIdentifier (q : String × PublicEntry) :
    (projectPublicEntry q).dataIdentifier = q.1 := rfl

theorem listPublic_entry_source {pages : Nat → Except Unit PublicPage} {limit : Nat}
    {ent : FileListEntry} (h : ent ∈ listPublic pages limit) :
    ∃ q, PubSourced q ∧ q.2.dataMetadata.accessType = some "public" ∧
      ent = projectPublicEntry q := by
  unfold listPublic at h
  obtain ⟨q, hq, hqe⟩ := List.mem_map.mp h
  have hpub := (List.mem_filter.mp hq).2
  have hq2 := (List.mem_filter.mp (List.mem_filter.mp hq).1).1
  refine ⟨q, ?_, of_decide_eq_true hpub, hqe.symm⟩
  exact listPublicLoop_sourced limit 0 ⟨[], []⟩ (by intro p hp; cases hp) q hq2

/-! ### C5: metadata completeness -/

/-- Claim C5 (amended): in `list`, no output entry lacks a storage-info piece
locator or carries the legacy encrypted-blob marker (its metadata always
satisfies `hasRequiredMetadata`).  In `listPublic`, no output entry lacks a
storage-info piece locator, but the legacy-marker exclusion is not applied on
that path. -/
theorem output_metadata_completeness :
    (∀ (opts : ListOptions) (ownerData minterData : FetchedData)
       (oracle : Except Unit (List (String × Bool))) (l : List FileListEntry) (w : Bool),
      list opts ownerData minterData oracle = .ok (l, w) →
      ∀ ent ∈ l, hasRequiredMetadata ent.metadata = true) ∧
    (∀ (pages : Nat → Except Unit PublicPage) (limit : Nat),
      ∀ ent ∈ listPublic pages limit,
        (truthyS (fsiPieceCid ent.metadata) || truthyS (fsiPieceCID ent.metadata)) = true) := by
  constructor
  · intro opts od md oracle l w h ent hent
    obtain ⟨files, hrec, hsrc⟩ := list_entry_source h
    obtain ⟨q, hqf, hqe⟩ := hsrc ent hent
    rcases processEvents_mem (groupEvents od md) [] files hrec q hqf with hnil | hprov
    · cases hnil
    obtain ⟨e, fm, m, _, _, hr, _, hq⟩ := hprov
    have hmeta : ent.metadata = m := by
      rw [hqe, projectEntry_metadata, hq]
      rfl
    rw [hmeta]
    exact hr
  · intro pages limit ent hent
    obtain ⟨q, ⟨f, metadata, _, hs, hqe⟩, _, hform⟩ := listPublic_entry_source hent
    have hmeta : ent.metadata = metadata := by
      rw [hform, projectPublicEntry_metadata, hqe]
      rfl
    rw [hmeta]
    exact hs

/-- Counterexample for C5 as stated: `listPublic` emits an entry whose
metadata carries the legacy encrypted-blob marker `encryptedData.ipfsHash`
(the public path never checks it). -/
theorem listPublic_emits_legacy_marker :
    listPublic (exPubPages [exPubEvent "id1" exMetaLegacy] []) 200 =
      [projectPublicEntry ("id1", mkPublicEntry (exPubEvent "id1" exMetaLegacy) exMetaLegacy)] ∧
    encIpfsHash (projectPublicEntry
      ("id1", mkPublicEntry (exPubEvent "id1" exMetaLegacy) exMetaLegacy)).metadata =
      some "QmX" ∧
    hasRequiredMetadata (projectPublicEntry
      ("id1", mkPublicEntry (exPubEvent "id1" exMetaLegacy) exMetaLegacy)).metadata = false := by
  exact ⟨rfl, rfl, rfl⟩

/-- Witness for C5 (amended): a `list` run and a `listPublic` run on concrete
inputs. -/
theorem output_metadata_completeness_witness :
    (list {} exCaseOwner {} (Except.ok []) = .ok ([projectEntry ("abc123",
      mkInternalEntry (exEvent "AbC123" "f") "abc123" (exMeta "f") false)], false) ∧
     hasRequiredMetadata (projectEntry ("abc123",
      mkInternalEntry (exEvent "AbC123" "f") "abc123" (exMeta "f") false)).metadata = true) ∧
    (truthyS (fsiPieceCid (projectPublicEntry ("id1",
        mkPublicEntry (exPubEvent "id1" exMetaLegacy) exMetaLegacy)).metadata) ||
      truthyS (fsiPieceCID (projectPublicEntry ("id1",
        mkPublicEntry (exPubEvent "id1" exMetaLegacy) exMetaLegacy)).metadata)) = true := by
  have hl : list {} exCaseOwner {} (Except.ok []) = .ok ([projectEntry ("abc123",
      mkInternalEntry (exEvent "AbC123" "f") "abc123" (exMeta "f") false)], false) := by
    rfl
  have hp : listPublic (exPubPages [exPubEvent "id1" exMetaLegacy] []) 200 =
      [projectPublicEntry ("id1", mkPublicEntry (exPubEvent "id1" exMetaLegacy) exMetaLegacy)] := by
    rfl
  refine ⟨⟨hl, ?_⟩, ?_⟩
  · exact output_metadata_completeness.1 {} exCaseOwner {} (Except.ok []) _ _ hl _
      (List.mem_singleton.mpr rfl)
  · exact output_metadata_completeness.2 (exPubPages [exPubEvent "id1" exMetaLegacy] []) 200 _
      (hp ▸ List.mem_singleton.mpr rfl)

/-! ### C8: public-only filter -/

/-- Claim C8: every entry returned by `listPublic` stems from a record whose
metadata access-type field is exactly the string `public`. -/
theorem listPublic_only_public :
    ∀ (pages : Nat → Except Unit PublicPage) (limit : Nat),
      ∀ ent ∈ listPublic pages limit,
        ent.metadata.accessType = some "public" ∧ ent.isPublic = true := by
  intro pages limit ent hent
  obtain ⟨q, _, hpub, hqe⟩ := listPublic_entry_source hent
  constructor
  · rw [hqe, projectPublicEntry_metadata]
    exact hpub
  · rw [hqe]
    rfl

/-- Witness for C8 at a concrete public page. -/
theorem listPublic_only_public_witness :
    listPublic (exPubPages [exPubEvent "p1" (exMeta "pub")] []) 200 =
      [projectPublicEntry ("p1", mkPublicEntry (exPubEvent "p1" (exMeta "pub")) (exMeta "pub"))] ∧
    (projectPublicEntry ("p1", mkPublicEntry (exPubEvent "p1" (exMeta "pub"))
      (exMeta "pub"))).metadata.accessType = some "public" := by
  have hp : listPublic (exPubPages [exPubEvent "p1" (exMeta "pub")] []) 200 =
      [projectPublicEntry ("p1", mkPublicEntry (exPubEvent "p1" (exMeta "pub")) (exMeta "pub"))] := by
    rfl
  exact ⟨hp, (listPublic_only_public (exPubPages [exPubEvent "p1" (exMeta "pub")] []) 200 _
    (hp ▸ List.mem_singleton.mpr rfl)).1⟩

/-! ### C6: identifier case normalization -/

/-- Counterexample for C6 as stated: `listPublic` performs no case
normalization — two deployed events whose identifiers differ only in letter
case yield two distinct entries keyed by the verbatim identifiers, and a
deletion recorded under a different casing does not exclude a deploy. -/
theorem listPublic_no_case_normalization :
    (listPublic (exPubPages
      [exPubEvent "AbC123" (exMeta "f"), exPubEvent "abc123" (exMeta "g")] []) 200).map
      FileListEntry.dataIdentifier = ["AbC123", "abc123"] ∧
    (listPublic (exPubPages [exPubEvent "AbC123" (exMeta "f")] ["ABC123"]) 200).map
      FileListEntry.dataIdentifier = ["AbC123"] := by
  exact ⟨rfl, rfl⟩

/-- Claim C6 (amended): in `list`, every event identifier is lower-cased
before being used as a map key or set member, so case-variant events
reconcile to a single record keyed by the lower-cased form; but the deletion
oracle response is matched by exact key, so a deletion reported under a
different casing does not exclude a record, and `listPublic` applies no
normalization at all. -/
theorem list_lowercases_identifiers :
    (∀ (opts : ListOptions) (ownerData minterData : FetchedData)
       (res : List (String × InternalFileEntry)),
      reconcile opts ownerData minterData = .ok res →
      (∀ q ∈ res, ∃ p ∈ groupEvents ownerData minterData,
        q.1 = jsToLower p.1.fileIdentifier) ∧
      (res.map Prod.fst).Nodup) ∧
    (reconcile {} exCaseOwner2 {} = .ok exCaseFiles) ∧
    (list {} exCaseOwner {} (.ok [("AbC123", true)]) =
      .ok ([projectEntry ("abc123",
        mkInternalEntry (exEvent "AbC123" "f") "abc123" (exMeta "f") false)], false)) := by
  refine ⟨?_, by rfl, by rfl⟩
  intro opts od md res hres
  constructor
  · intro q hq
    rcases processEvents_mem (groupEvents od md) [] res hres q hq with hnil | hprov
    · cases hnil
    obtain ⟨e, fm, m, hmem, _, _, _, hqe⟩ := hprov
    exact ⟨(e, fm), hmem, by rw [hqe]⟩
  · exact processEvents_nodup (groupEvents od md) [] res (by simp) hres

/-- Witness for C6 (amended) at a concrete reconciliation. -/
theorem list_lowercases_identifiers_witness :
    reconcile {} exCaseOwner2 {} = .ok exCaseFiles ∧
    (∀ q ∈ exCaseFiles, ∃ p ∈ groupEvents exCaseOwner2 ({} : FetchedData),
      q.1 = jsToLower p.1.fileIdentifier) ∧
    (exCaseFiles.map Prod.fst).Nodup := by
  have hrec : reconcile {} exCaseOwner2 {} = .ok exCaseFiles := by rfl
  obtain ⟨hlow, hnd⟩ := list_lowercases_identifiers.1 {} exCaseOwner2 {} exCaseFiles hrec
  exact ⟨hrec, hlow, hnd⟩

/-! ### C3: sort semantics -/

theorem charEq_of_toNat_eq {a b : Char} (h : a.toNat = b.toNat) : a = b :=
  Char.ext (UInt32.ext h)

theorem strLtList_asymm : ∀ (a b : List Char),
    strLtList a b = true → strLtList b a = false := by
  intro a
  induction a with
  | nil =>
    intro b h
    cases b with
    | nil => simp [strLtList] at h
    | cons c cs => rfl
  | cons x xs ih =>
    intro b h
    cases b with
    | nil => simp [strLtList] at h
    | cons y ys =>
      simp only [strLtList] at h ⊢
      by_cases h1 : x.toNat < y.toNat
      · rw [if_neg (by omega : ¬ y.toNat < x.toNat), if_pos h1]
      · by_cases h2 : y.toNat < x.toNat
        · rw [if_neg h1, if_pos h2] at h
          cases h
        · rw [if_neg h1, if_neg h2] at h
          rw [if_neg h2, if_neg h1]
          exact ih ys h

theorem strLtList_trans : ∀ (a b c : List Char),
    strLtList a b = true → strLtList b c = true → strLtList a c = true := by
  intro a
  induction a with
  | nil =>
    intro b c hab hbc
    cases c with
    | nil =>
      cases b with
      | nil => simp [strLtList] at hab
      | cons y ys => simp [strLtList] at hbc
    | cons z zs => simp [strLtList]
  | cons x xs ih =>
    intro b c hab hbc
    cases b with
    | nil => simp [strLtList] at hab
    | cons y ys =>
      cases c with
      | nil => simp [strLtList] at hbc
      | cons z zs =>
        simp only [strLtList] at hab hbc ⊢
        by_cases h1 : x.toNat < y.toNat
        · by_cases h2 : y.toNat < z.toNat
          · rw [if_pos (by omega : x.toNat < z.toNat)]
          · rw [if_neg h2] at hbc
            by_cases h3 : z.toNat < y.toNat
            · rw [if_pos h3] at hbc
              cases hbc
            · rw [if_neg h3] at hbc
              rw [if_pos (by omega : x.toNat < z.toNat)]
        · rw [if_neg h1] at hab
          by_cases h4 : y.toNat < x.toNat
          · rw [if_pos h4] at hab
            cases hab
          · rw [if_neg h4] at hab
            by_cases h2 : y.toNat < z.toNat
            · rw [if_pos (by omega : x.toNat < z.toNat)]
            · rw [if_neg h2] at hbc
              by_cases h3 : z.toNat < y.toNat
              · rw [if_pos h3] at hbc
                cases hbc
              · rw [if_neg h3] at hbc
                rw [if_neg (by omega : ¬ x.toNat < z.toNat),
                    if_neg (by omega : ¬ z.toNat < x.toNat)]
                exact ih ys zs hab hbc

theorem strLtList_trichotomy : ∀ (a b : List Char),
    strLtList a b = true ∨ strLtList b a = true ∨ a = b := by
  intro a
  induction a with
  | nil =>
    intro b
    cases b with
    | nil => exact Or.inr (Or.inr rfl)
    | cons c cs => exact Or.inl (by simp [strLtList])
  | cons x xs ih =>
    intro b
    cases b with
    | nil => exact Or.inr (Or.inl (by simp [strLtList]))
    | cons y ys =>
      rcases Nat.lt_trichotomy x.toNat y.toNat with h | h | h
      · left
        simp only [strLtList]
        rw [if_pos h]
      · have hxy : x = y := charEq_of_toNat_eq h
        subst hxy
        rcases ih ys with h1 | h1 | h1
        · left
          simp only [strLtList]
          rw [if_neg (Nat.lt_irrefl _), if_neg (Nat.lt_irrefl _)]
          exact h1
        · right
          left
          simp only [strLtList]
          rw [if_neg (Nat.lt_irrefl _), if_neg (Nat.lt_irrefl _)]
          exact h1
        · right
          right
          rw [h1]
      · right
        left
        simp only [strLtList]
        rw [if_pos h]

theorem jsStrLt_asymm {x y : String} (h : jsStrLt x y = true) : jsStrLt y x = false :=
  strLtList_asymm x.data y.data h

theorem jsStrLt_eq_false_trans {x y z : String}
    (h1 : jsStrLt x y = false) (h2 : jsStrLt y z = false) : jsStrLt x z = false := by
  cases hxz : jsStrLt x z with
  | false => rfl
  | true =>
    exfalso
    rcases strLtList_trichotomy x.data y.data with h | h | h
    · have hf : strLtList x.data y.data = false := h1
      rw [hf] at h
      cases h
    · have hyz : strLtList y.data z.data = true := strLtList_trans y.data x.data z.data h hxz
      have hf : strLtList y.data z.data = false := h2
      rw [hf] at hyz
      cases hyz
    · have hxy : x = y := congrArg String.mk h
      rw [hxy] at hxz
      have hf : strLtList y.data z.data = false := h2
      rw [show jsStrLt y z = strLtList y.data z.data from rfl, hf] at hxz
      cases hxz

theorem strCmpInt_antisymm (x y : String) : strCmpInt y x = -strCmpInt x y := by
  unfold strCmpInt
  by_cases hab : jsStrLt x y = true
  · have hba := jsStrLt_asymm hab
    norm_num [hab, hba]
  · have hab2 : jsStrLt x y = false := by
      cases h : jsStrLt x y
      · rfl
      · exact absurd h hab
    by_cases hba : jsStrLt y x = true
    · norm_num [hab2, hba]
    · have hba2 : jsStrLt y x = false := by
        cases h : jsStrLt y x
        · rfl
        · exact absurd h hba
      norm_num [hab2, hba2]

theorem strCmpInt_nonpos (x y : String) : strCmpInt x y ≤ 0 ↔ jsStrLt y x = false := by
  unfold strCmpInt
  by_cases hab : jsStrLt x y = true
  · have hba := jsStrLt_asymm hab
    norm_num [hab, hba]
  · have hab2 : jsStrLt x y = false := by
      cases h : jsStrLt x y
      · rfl
      · exact absurd h hab
    by_cases hba : jsStrLt y x = true
    · norm_num [hab2, hba]
    · have hba2 : jsStrLt y x = false := by
        cases h : jsStrLt y x
        · rfl
        · exact absurd h hba
      norm_num [hab2, hba2]

theorem strCmpInt_neg_nonpos (x y : String) : -strCmpInt x y ≤ 0 ↔ jsStrLt x y = false := by
  unfold strCmpInt
  by_cases hab : jsStrLt x y = true
  · norm_num [hab]
  · have hab2 : jsStrLt x y = false := by
      cases h : jsStrLt x y
      · rfl
      · exact absurd h hab
    by_cases hba : jsStrLt y x = true
    · norm_num [hab2, hba]
    · have hba2 : jsStrLt y x = false := by
        cases h : jsStrLt y x
        · rfl
        · exact absurd h hba
      norm_num [hab2, hba2]

theorem sortComparator_nn {sb : SortBy} {a b : InternalFileEntry}
    (ha : dataMetadataField a.dataMetadata sb.field = none)
    (hb : dataMetadataField b.dataMetadata sb.field = none) :
    sortComparator sb a b = 0 := by
  unfold sortComparator
  rw [ha, hb]

theorem sortComparator_ns {sb : SortBy} {a b : InternalFileEntry} {y : String}
    (ha : dataMetadataField a.dataMetadata sb.field = none)
    (hb : dataMetadataField b.dataMetadata sb.field = some y) :
    sortComparator sb a b = if isDesc sb then 1 else -1 := by
  unfold sortComparator
  rw [ha, hb]

theorem sortComparator_sn {sb : SortBy} {a b : InternalFileEntry} {x : String}
    (ha : dataMetadataField a.dataMetadata sb.field = some x)
    (hb : dataMetadataField b.dataMetadata sb.field = none) :
    sortComparator sb a b = if isDesc sb then -1 else 1 := by
  unfold sortComparator
  rw [ha, hb]

theorem sortComparator_ss {sb : SortBy} {a b : InternalFileEntry} {x y : String}
    (ha : dataMetadataField a.dataMetadata sb.field = some x)
    (hb : dataMetadataField b.dataMetadata sb.field = some y) :
    sortComparator sb a b = if isDesc sb then -(strCmpInt x y) else strCmpInt x y := by
  unfold sortComparator
  rw [ha, hb]

theorem sortComparator_antisymm (sb : SortBy) (a b : InternalFileEntry) :
    sortComparator sb b a = -sortComparator sb a b := by
  cases ha : dataMetadataField a.dataMetadata sb.field with
  | none =>
    cases hb : dataMetadataField b.dataMetadata sb.field with
    | none =>
      rw [sortComparator_nn hb ha, sortComparator_nn ha hb]
      decide
    | some y =>
      rw [sortComparator_sn hb ha, sortComparator_ns ha hb]
      cases hd : isDesc sb
      · rw [if_neg Bool.false_ne_true, if_neg Bool.false_ne_true]
        decide
      · rw [if_pos rfl, if_pos rfl]
  | some x =>
    cases hb : dataMetadataField b.dataMetadata sb.field with
    | none =>
      rw [sortComparator_ns hb ha, sortComparator_sn ha hb]
      cases hd : isDesc sb
      · rw [if_neg Bool.false_ne_true, if_neg Bool.false_ne_true]
      · rw [if_pos rfl, if_pos rfl]
        decide
    | some y =>
      rw [sortComparator_ss hb ha, sortComparator_ss ha hb]
      cases hd : isDesc sb
      · rw [if_neg Bool.false_ne_true, if_neg Bool.false_ne_true]
        exact strCmpInt_antisymm x y
      · rw [if_pos rfl, if_pos rfl, strCmpInt_antisymm x y]

theorem sortComparator_total (sb : SortBy) (a b : InternalFileEntry) :
    sortComparator sb a b ≤ 0 ∨ sortComparator sb b a ≤ 0 := by
  rw [sortComparator_antisymm]
  omega

theorem sortComparator_trans (sb : SortBy) (a b c : InternalFileEntry)
    (h1 : sortComparator sb a b ≤ 0) (h2 : sortComparator sb b c ≤ 0) :
    sortComparator sb a c ≤ 0 := by
  cases ha : dataMetadataField a.dataMetadata sb.field with
  | none =>
    cases hb : dataMetadataField b.dataMetadata sb.field with
    | none =>
      cases hc : dataMetadataField c.dataMetadata sb.field with
      | none =>
        rw [sortComparator_nn ha hc]
      | some z =>
        rw [sortComparator_ns hb hc] at h2
        rw [sortComparator_ns ha hc]
        exact h2
    | some y =>
      rw [sortComparator_ns ha hb] at h1
      cases hc : dataMetadataField c.dataMetadata sb.field with
      | none =>
        rw [sortComparator_nn ha hc]
      | some z =>
        rw [sortComparator_ns ha hc]
        exact h1
  | some x =>
    cases hb : dataMetadataField b.dataMetadata sb.field with
    | none =>
      rw [sortComparator_sn ha hb] at h1
      cases hc : dataMetadataField c.dataMetadata sb.field with
      | none =>
        rw [sortComparator_sn ha hc]
        exact h1
      | some z =>
        rw [sortComparator_ns hb hc] at h2
        rw [sortComparator_ss ha hc]
        cases hd : isDesc sb
        · rw [hd, if_neg Bool.false_ne_true] at h1
          exact absurd h1 (by decide)
        · rw [hd, if_pos rfl] at h2
          exact absurd h2 (by decide)
    | some y =>
      rw [sortComparator_ss ha hb] at h1
      cases hc : dataMetadataField c.dataMetadata sb.field with
      | none =>
        rw [sortComparator_sn hb hc] at h2
        rw [sortComparator_sn ha hc]
        exact h2
      | some z =>
        rw [sortComparator_ss hb hc] at h2
        rw [sortComparator_ss ha hc]
        cases hd : isDesc sb
        · rw [hd, if_neg Bool.false_ne_true] at h1
          rw [hd, if_neg Bool.false_ne_true] at h2
          rw [if_neg Bool.false_ne_true]
          rw [strCmpInt_nonpos] at h1 h2 ⊢
          exact jsStrLt_eq_false_trans h2 h1
        · rw [hd, if_pos rfl] at h1
          rw [hd, if_pos rfl] at h2
          rw [if_pos rfl]
          rw [strCmpInt_neg_nonpos] at h1 h2 ⊢
          exact jsStrLt_eq_false_trans h1 h2

theorem sortComparator_le_imp_desc {sb : SortBy} (hd : isDesc sb = true)
    {p q : String × InternalFileEntry} (h : sortComparator sb p.2 q.2 ≤ 0) :
    (dataMetadataField p.2.dataMetadata sb.field = none →
      dataMetadataField q.2.dataMetadata sb.field = none) ∧
    (∀ x y, dataMetadataField p.2.dataMetadata sb.field = some x →
      dataMetadataField q.2.dataMetadata sb.field = some y → jsStrLt x y = false) := by
  cases ha : dataMetadataField p.2.dataMetadata sb.field with
  | none =>
    cases hb : dataMetadataField q.2.dataMetadata sb.field with
    | none =>
      refine ⟨fun _ => rfl, ?_⟩
      intro x y hx hy
      cases hx
    | some y =>
      rw [sortComparator_ns ha hb, hd, if_pos rfl] at h
      exact absurd h (by decide)
  | some x =>
    cases hb : dataMetadataField q.2.dataMetadata sb.field with
    | none =>
      refine ⟨?_, ?_⟩
      · intro hx
        cases hx
      · intro u v hu hv
        cases hv
    | some y =>
      rw [sortComparator_ss ha hb, hd, if_pos rfl, strCmpInt_neg_nonpos] at h
      refine ⟨?_, ?_⟩
      · intro hx
        cases hx
      · intro u v hu hv
        injection hu with hu
        injection hv with hv
        rw [← hu, ← hv]
        exact h

theorem sortComparator_le_imp_asc {sb : SortBy} (hd : isDesc sb = false)
    {p q : String × InternalFileEntry} (h : sortComparator sb p.2 q.2 ≤ 0) :
    (dataMetadataField q.2.dataMetadata sb.field = none →
      dataMetadataField p.2.dataMetadata sb.field = none) ∧
    (∀ x y, dataMetadataField p.2.dataMetadata sb.field = some x →
      dataMetadataField q.2.dataMetadata sb.field = some y → jsStrLt y x = false) := by
  cases ha : dataMetadataField p.2.dataMetadata sb.field with
  | none =>
    cases hb : dataMetadataField q.2.dataMetadata sb.field with
    | none =>
      refine ⟨fun _ => rfl, ?_⟩
      intro x y hx hy
      cases hx
    | some y =>
      refine ⟨?_, ?_⟩
      · intro hy
        cases hy
      · intro u v hu hv
        cases hu
  | some x =>
    cases hb : dataMetadataField q.2.dataMetadata sb.field with
    | none =>
      rw [sortComparator_sn ha hb, hd, if_neg Bool.false_ne_true] at h
      exact absurd h (by decide)
    | some y =>
      rw [sortComparator_ss ha hb, hd, if_neg Bool.false_ne_true, strCmpInt_nonpos] at h
      refine ⟨?_, ?_⟩
      · intro hy
        cases hy
      · intro u v hu hv
        injection hu with hu
        injection hv with hv
        rw [← hu, ← hv]
        exact h

/-- Claim C3 (amended): with a sort spec, records whose sort-field value is
absent are placed after all present-value records when the direction is
`desc`, but before them when the direction is ascending (missing values
compare as smaller than every present value); present values are ordered by
lexicographic string comparison in the requested direction. -/
theorem sortStage_sort_semantics :
    ∀ (sb : SortBy) (files : List (String × InternalFileEntry)),
      (isDesc sb = true →
        (sortStage (some sb) files).Pairwise (fun p q =>
          (dataMetadataField p.2.dataMetadata sb.field = none →
            dataMetadataField q.2.dataMetadata sb.field = none) ∧
          (∀ x y, dataMetadataField p.2.dataMetadata sb.field = some x →
            dataMetadataField q.2.dataMetadata sb.field = some y →
            jsStrLt x y = false))) ∧
      (isDesc sb = false →
        (sortStage (some sb) files).Pairwise (fun p q =>
          (dataMetadataField q.2.dataMetadata sb.field = none →
            dataMetadataField p.2.dataMetadata sb.field = none) ∧
          (∀ x y, dataMetadataField p.2.dataMetadata sb.field = some x →
            dataMetadataField q.2.dataMetadata sb.field = some y →
            jsStrLt y x = false))) := by
  intro sb files
  have hsorted : List.Sorted (fun p q : String × InternalFileEntry =>
      sortComparator sb p.2 q.2 ≤ 0) (sortStage (some sb) files) := by
    haveI : IsTotal (String × InternalFileEntry)
        (fun p q => sortComparator sb p.2 q.2 ≤ 0) :=
      ⟨fun p q => sortComparator_total sb p.2 q.2⟩
    haveI : IsTrans (String × InternalFileEntry)
        (fun p q => sortComparator sb p.2 q.2 ≤ 0) :=
      ⟨fun p q r => sortComparator_trans sb p.2 q.2 r.2⟩
    exact List.sorted_insertionSort _ files
  constructor
  · intro hd
    exact List.Pairwise.imp (fun h => sortComparator_le_imp_desc hd h) hsorted
  · intro hd
    exact List.Pairwise.imp (fun h => sortComparator_le_imp_asc hd h) hsorted

/-- Counterexample for C3 as stated: with an ascending sort on the name
field, the record with a missing name is placed first, not last. -/
theorem list_sort_asc_missing_first :
    (list exSortOpts exSortOwner {} (.ok [])).map
      (fun r => r.1.map (fun ent => (ent.dataIdentifier, ent.fileName))) =
      .ok [("a", "Unknown"), ("b", "b")] ∧
    dataMetadataField (extractMetadata exMetaNoName) "name" = none ∧
    dataMetadataField (extractMetadata (exMeta "b")) "name" = some "b" := by
  exact ⟨rfl, rfl, rfl⟩

/-- Witness for C3 (amended) at a concrete descending sort spec. -/
theorem sortStage_sort_semantics_witness :
    isDesc { field := "name", direction := some "desc" } = true ∧
    (sortStage (some { field := "name", direction := some "desc" }) exSortFiles).Pairwise
      (fun p q =>
        (dataMetadataField p.2.dataMetadata "name" = none →
          dataMetadataField q.2.dataMetadata "name" = none) ∧
        (∀ x y, dataMetadataField p.2.dataMetadata "name" = some x →
          dataMetadataField q.2.dataMetadata "name" = some y →
          jsStrLt x y = false)) := by
  exact ⟨rfl, (sortStage_sort_semantics { field := "name", direction := some "desc" }
    exSortFiles).1 rfl⟩

end SynapseSDK
